import Mathlib

/-!
# DemystiLex mind map (`static/js/mindmap.js`): a shallow embedding

`drawMindMap(container, data)` annotates a JSON tree with leaf counts, lays it
out radially, sizes a viewport, wraps every title into lines and appends lines
and node groups to an SVG element. The part of the click handler of
`static/js/demystify.js` that hands the parsed response to the mind map is
embedded as well.

Conventions of the embedding.

* A JS string is a `List Char` (`JsString`), one list element per code unit;
  `length` is `.length`. Characters outside the basic multilingual plane (two
  code units in JS) are outside the model.
* A JS number is an element of a linearly ordered field `α`, with exact
  arithmetic. `Math.cos`, `Math.sin` and `Math.PI` are the fields of a
  `JsMath α`; theorems that need trigonometry instantiate it with the real
  functions. Where rounding decides a property (the nesting of the angular
  spans), the angle computation is embedded a second time, generic in the
  arithmetic, and run on IEEE 754 binary64 numbers (`F64`).
* The tree object is mutated in place by the source. Here every pass returns
  the tree it leaves behind: `Node Unit` is the parsed input, `Node Nat` the
  tree after `countLeafNodes` (the annotation is `leafCount`), `Node (Placed α)`
  the tree after `calculateLayout`.
* A thrown `TypeError` is `Except.error JsError.typeError`; calling a name
  that no script binds throws `JsError.referenceError`.
* Ghost data, absent from the source and never read by the embedded code:
  `Placed.level`, `Placed.angleStart`, `Placed.angleEnd` record the arguments of
  the `calculateLayout` call made on the node, and the `node` field of an
  `Element` records the path (child indices from the root) of the tree node
  the DOM element was created for; it stands for the identity of the DOM
  object.
-/

namespace MindMap

/-- JS string: a list of code units. -/
abbrev JsString := List Char

/-- Tree object `{title, children, ...}`; `title` and `children` may be absent.
`ann` holds the properties written on the object so far. -/
inductive Node (A : Type) where
  | mk (title : Option JsString) (children : Option (List (Node A))) (ann : A)

namespace Node

/-- Property `node.title` (`none` is `undefined`). -/
def title {A : Type} : Node A → Option JsString
  | .mk t _ _ => t

/-- Property `node.children` (`none` is `undefined`). -/
def children {A : Type} : Node A → Option (List (Node A))
  | .mk _ c _ => c

/-- Annotation written on the node. -/
def ann {A : Type} : Node A → A
  | .mk _ _ a => a

/-- Elements of `node.children`, none when the property is absent. -/
def childList {A : Type} (n : Node A) : List (Node A) :=
  match n.children with
  | none => []
  | some cs => cs

mutual
/-- All nodes of the tree, the node itself first. -/
def subnodes {A : Type} : Node A → List (Node A)
  | .mk t none a => [.mk t none a]
  | .mk t (some cs) a => .mk t (some cs) a :: subnodesList cs
/-- All nodes of a forest. -/
def subnodesList {A : Type} : List (Node A) → List (Node A)
  | [] => []
  | c :: cs => subnodes c ++ subnodesList cs
end

mutual
/-- Number of nodes of the tree with no children (absent or empty array). -/
def numChildless {A : Type} : Node A → Nat
  | .mk _ none _ => 1
  | .mk _ (some []) _ => 1
  | .mk _ (some (c :: cs)) _ => numChildlessList (c :: cs)
/-- Number of childless nodes of a forest. -/
def numChildlessList {A : Type} : List (Node A) → Nat
  | [] => 0
  | c :: cs => numChildless c + numChildlessList cs
end

mutual
/-- Number of nodes of the tree. -/
def size {A : Type} : Node A → Nat
  | .mk _ none _ => 1
  | .mk _ (some cs) _ => 1 + sizeList cs
/-- Number of nodes of a forest. -/
def sizeList {A : Type} : List (Node A) → Nat
  | [] => 0
  | c :: cs => size c + sizeList cs
end

mutual
/-- The same tree with every annotation replaced through `f`. -/
def mapAnn {A B : Type} (f : A → B) : Node A → Node B
  | .mk t none a => .mk t none (f a)
  | .mk t (some cs) a => .mk t (some (mapAnnList f cs)) (f a)
/-- Forest version of `mapAnn`. -/
def mapAnnList {A B : Type} (f : A → B) : List (Node A) → List (Node B)
  | [] => []
  | c :: cs => mapAnn f c :: mapAnnList f cs
end

mutual
/-- Node reached from the root by following the child indices of `path`. -/
def subtreeAt {A : Type} : Node A → List Nat → Option (Node A)
  | n, [] => some n
  | .mk _ none _, _ :: _ => none
  | .mk _ (some cs) _, i :: p => subtreeAtList cs i p
/-- Node reached from the `i`-th tree of a forest along `path`. -/
def subtreeAtList {A : Type} : List (Node A) → Nat → List Nat → Option (Node A)
  | [], _, _ => none
  | c :: _, 0, p => subtreeAt c p
  | _ :: cs, i + 1, p => subtreeAtList cs i p
end

end Node

/-! ## 1. `countLeafNodes` (lines 16-28) -/

mutual
/-- Function `countLeafNodes(node)`: the annotated node and the returned count. -/
def countLeafNodes : Node Unit → Node Nat × Nat
  | .mk title none _ => (.mk title none 1, 1)
  | .mk title (some []) _ => (.mk title (some []) 1, 1)
  | .mk title (some (c :: cs)) _ =>
      let r := countLeafNodes.forEach (c :: cs) 0
      (.mk title (some r.1) r.2, r.2)
/-- Loop `node.children.forEach(child => { count += countLeafNodes(child); })`
run from the running value `count`. -/
def countLeafNodes.forEach : List (Node Unit) → Nat → List (Node Nat) × Nat
  | [], count => ([], count)
  | child :: rest, count =>
      let r := countLeafNodes child
      let r2 := countLeafNodes.forEach rest (count + r.2)
      (r.1 :: r2.1, r2.2)
end

/-- What line 18 / line 25 leave in `leafCount`: 1 on a node with no children,
the sum of the children's `leafCount` otherwise. -/
def leafCountRule (n : Node Nat) : Prop :=
  n.ann = match n.children with
    | none => 1
    | some [] => 1
    | some (c :: cs) => ((c :: cs).map Node.ann).sum

instance (n : Node Nat) : Decidable (leafCountRule n) := by
  unfold leafCountRule
  infer_instance

/-! ## 2. `calculateLayout` (lines 31-60) -/

/-- Functions and constant of the JS `Math` object used by the layout. -/
structure JsMath (α : Type) where
  cos : α → α
  sin : α → α
  PI : α

/-- Properties of a node after `calculateLayout`: `leafCount`, `x`, `y`, and
the ghost record of the call's `level` and `angleRange` arguments. -/
structure Placed (α : Type) where
  leafCount : Nat
  x : α
  y : α
  level : Nat
  angleStart : α
  angleEnd : α

/-- Object `boundingBox`. `none` in `minX`/`minY` is the initial `Infinity`,
`none` in `maxX`/`maxY` the initial `-Infinity`. -/
structure BoundingBox (α : Type) where
  minX : Option α
  minY : Option α
  maxX : Option α
  maxY : Option α

/-- Initial value `{ minX: Infinity, minY: Infinity, maxX: -Infinity, maxY: -Infinity }`. -/
def BoundingBox.init {α : Type} : BoundingBox α := ⟨none, none, none, none⟩

/-- Constant `nodeDimensions.width`. -/
def nodeWidth : Nat := 160
/-- Constant `nodeDimensions.height`. -/
def nodeHeight : Nat := 80

section Layout
variable {α : Type} [LinearOrderedField α]

/-- Call `Math.min(b, v)` for a bound `b` that is `Infinity` or finite. -/
def mathMin (b : Option α) (v : α) : Option α :=
  match b with
  | none => some v
  | some m => some (min m v)

/-- Call `Math.max(b, v)` for a bound `b` that is `-Infinity` or finite. -/
def mathMax (b : Option α) (v : α) : Option α :=
  match b with
  | none => some v
  | some m => some (max m v)

/-- Lines 38-41: the bounding box after visiting a node placed at `(x, y)`. -/
def BoundingBox.visit (bb : BoundingBox α) (x y : α) : BoundingBox α :=
  { minX := mathMin bb.minX (x - (nodeWidth : α))
    maxX := mathMax bb.maxX (x + (nodeWidth : α))
    minY := mathMin bb.minY (y - (nodeHeight : α))
    maxY := mathMax bb.maxY (y + (nodeHeight : α)) }

mutual
/-- Function `calculateLayout(node, x, y, level, angleRange)` run with the
bounding box `bb`: the node with its positions written, and the bounding box
afterwards. -/
def calculateLayout (M : JsMath α) :
    Node Nat → α → α → Nat → α × α → BoundingBox α → Node (Placed α) × BoundingBox α
  | .mk title none leafCount, x, y, level, angleRange, bb =>
      (.mk title none ⟨leafCount, x, y, level, angleRange.1, angleRange.2⟩, bb.visit x y)
  | .mk title (some []) leafCount, x, y, level, angleRange, bb =>
      (.mk title (some []) ⟨leafCount, x, y, level, angleRange.1, angleRange.2⟩, bb.visit x y)
  | .mk title (some (c :: cs)) leafCount, x, y, level, angleRange, bb =>
      let currentAngle := angleRange.1
      let distance : α := 300 - ((level : α) * 50)
      let r := calculateLayout.forEach M (c :: cs) leafCount x y level angleRange distance
        currentAngle (bb.visit x y)
      (.mk title (some r.1) ⟨leafCount, x, y, level, angleRange.1, angleRange.2⟩, r.2.2)
/-- Loop `node.children.forEach(child => {...})` of lines 48-57, run from the
running `currentAngle` and bounding box; `leafCount` is `node.leafCount`. Gives
the children placed, the final `currentAngle` and the bounding box. -/
def calculateLayout.forEach (M : JsMath α) :
    List (Node Nat) → Nat → α → α → Nat → α × α → α → α → BoundingBox α →
      List (Node (Placed α)) × α × BoundingBox α
  | [], _, _, _, _, _, _, currentAngle, bb => ([], currentAngle, bb)
  | child :: rest, leafCount, x, y, level, angleRange, distance, currentAngle, bb =>
      let angleSpan : α := ((child.ann : α) / (leafCount : α)) * (angleRange.2 - angleRange.1)
      let angle := currentAngle + angleSpan / 2
      let childX := x + distance * M.cos angle
      let childY := y + distance * M.sin angle
      let r := calculateLayout M child childX childY (level + 1)
        (currentAngle, currentAngle + angleSpan) bb
      let r2 := calculateLayout.forEach M rest leafCount x y level angleRange distance
        (currentAngle + angleSpan) r.2
      (r.1 :: r2.1, r2.2.1, r2.2.2)
end

/-- Attribute `viewBox` of the svg element: `min-x min-y width height`; a
component is `none` when the bounding box is still infinite there. -/
structure ViewBox (α : Type) where
  x : Option α
  y : Option α
  width : Option α
  height : Option α

/-- Constant `padding`. -/
def padding : Nat := 80

/-- Lines 64-67: the `viewBox` computed from the bounding box. -/
def viewBoxOf (bb : BoundingBox α) : ViewBox α :=
  { x := bb.minX.map (fun m => m - (padding : α))
    y := bb.minY.map (fun m => m - (padding : α))
    width := match bb.maxX, bb.minX with
      | some hi, some lo => some (hi - lo + (padding : α) * 2)
      | _, _ => none
    height := match bb.maxY, bb.minY with
      | some hi, some lo => some (hi - lo + (padding : α) * 2)
      | _, _ => none }

/-- Call `calculateLayout(data, 0, 0)` of line 60, with the default `level = 0`
and `angleRange = [0, 2 * Math.PI]`, on the fresh bounding box. -/
def layoutRoot (M : JsMath α) (data : Node Nat) : Node (Placed α) × BoundingBox α :=
  calculateLayout M data 0 0 0 (0, 2 * M.PI) BoundingBox.init

end Layout

section Spans
variable {α : Type}

/-- Angular span `[angleStart, angleEnd]` the layout call on the node received. -/
def span (n : Node (Placed α)) : α × α := (n.ann.angleStart, n.ann.angleEnd)

/-- Width of the node's angular span. -/
def spanWidth [Sub α] (n : Node (Placed α)) : α := n.ann.angleEnd - n.ann.angleStart

/-- The spans tile `[s, e]` in order: the first starts at `s`, each next one
starts where the previous one ends, the last ends at `e`. -/
def IsPartition : List (α × α) → α → α → Prop
  | [], s, e => s = e
  | (a, b) :: rest, s, e => a = s ∧ IsPartition rest b e

instance decIsPartition [DecidableEq α] : ∀ (l : List (α × α)) (s e : α), Decidable (IsPartition l s e)
  | [], s, e => by unfold IsPartition; infer_instance
  | (a, b) :: rest, s, e => by
      unfold IsPartition
      exact @instDecidableAnd _ _ _ (decIsPartition rest b e)

end Spans

/-- The children of a placed node share its angular span exactly: their spans
tile it in order, their widths add up to its width, and each width is the
child's `leafCount / node.leafCount` share of it. -/
def SpansExact {α : Type} [Field α] (n : Node (Placed α)) : Prop :=
  ∀ cs, n.children = some cs → cs ≠ [] →
    IsPartition (cs.map span) n.ann.angleStart n.ann.angleEnd ∧
    (cs.map spanWidth).sum = n.ann.angleEnd - n.ann.angleStart ∧
    ∀ c ∈ cs, spanWidth c
      = ((c.ann.leafCount : α) / (n.ann.leafCount : α)) * (n.ann.angleEnd - n.ann.angleStart)

/-! ## Sample trees -/

/-- Tree `{title:"Lease Agreement", children:[{title:"Parties"},{title:"Term and Rent"}]}`. -/
def leaseTree : Node Unit :=
  .mk (some "Lease Agreement".toList)
    (some [.mk (some "Parties".toList) none (), .mk (some "Term and Rent".toList) none ()]) ()

/-- Tree `{title:"Summary"}`. -/
def summaryTree : Node Unit := .mk (some "Summary".toList) none ()

/-- A title of 19 words of 10 letters; no two of them fit on one line of 18. -/
def tallTitle : JsString :=
  (List.intersperse [' '] (List.replicate 19 "aaaaaaaaaa".toList)).flatten

/-- The single leaf root whose title is `tallTitle`. -/
def tallTree : Node Unit := .mk (some tallTitle) none ()

/-- A root with one child that has no title: `{title:"Root", children:[{}]}`. -/
def untitledChildTree : Node Unit :=
  .mk (some "Root".toList) (some [.mk none none ()]) ()

/-- A chain of `k + 1` nodes titled `n`, each one the only child of the previous one. -/
def chainTree : Nat → Node Unit
  | 0 => .mk (some ['n']) none ()
  | k + 1 => .mk (some ['n']) (some [chainTree k]) ()

/-- Lines 46-55 seen from the result: every child of the placed node is one
level deeper and sits at the node's position plus
`(300 - level * 50) * (cos angle, sin angle)`, `angle` being the midpoint of
the child's angular span. -/
def ChildrenOffset {α : Type} [Field α] (M : JsMath α) (n : Node (Placed α)) : Prop :=
  ∀ cs, n.children = some cs → ∀ c ∈ cs,
    c.ann.level = n.ann.level + 1 ∧
    c.ann.x = n.ann.x + (300 - (n.ann.level : α) * 50)
      * M.cos (c.ann.angleStart + (c.ann.angleEnd - c.ann.angleStart) / 2) ∧
    c.ann.y = n.ann.y + (300 - (n.ann.level : α) * 50)
      * M.sin (c.ann.angleStart + (c.ann.angleEnd - c.ann.angleStart) / 2)

/-- The lease tree after `countLeafNodes` and the root `calculateLayout` call. -/
def leasePlaced {α : Type} [LinearOrderedField α] (M : JsMath α) : Node (Placed α) :=
  (layoutRoot M (countLeafNodes leaseTree).1).1

/-! ## 3. Word wrap inside `createNode` (lines 79-90) -/

/-- Code units removed by `String.prototype.trim`: white space and line
terminators. -/
def isTrimChar (c : Char) : Bool :=
  c.toNat = 0x09 || c.toNat = 0x0A || c.toNat = 0x0B || c.toNat = 0x0C || c.toNat = 0x0D ||
  c.toNat = 0x20 || c.toNat = 0xA0 || c.toNat = 0x1680 ||
  (0x2000 ≤ c.toNat && c.toNat ≤ 0x200A) ||
  c.toNat = 0x2028 || c.toNat = 0x2029 || c.toNat = 0x202F || c.toNat = 0x205F ||
  c.toNat = 0x3000 || c.toNat = 0xFEFF

/-- Method `s.trim()`. -/
def trim (s : JsString) : JsString :=
  ((s.dropWhile isTrimChar).reverse.dropWhile isTrimChar).reverse

/-- Method `text.split(' ')`: the pieces between single spaces, empty pieces kept. -/
def splitSpace : JsString → List JsString
  | [] => [[]]
  | c :: cs =>
      if c = ' ' then [] :: splitSpace cs
      else match splitSpace cs with
        | [] => [[c]]
        | w :: ws => (c :: w) :: ws

/-- Variables `line` and `tspanLines` of the wrap loop. -/
structure WrapState where
  line : JsString
  tspanLines : List JsString

/-- Body of `words.forEach(word => {...})`, lines 85-88. -/
def wrapWord (maxCharsPerLine : Nat) (st : WrapState) (word : JsString) : WrapState :=
  if (st.line ++ word).length > maxCharsPerLine ∧ st.line.length > 0 then
    { tspanLines := st.tspanLines ++ [trim st.line], line := word ++ [' '] }
  else
    { tspanLines := st.tspanLines, line := st.line ++ (word ++ [' ']) }

/-- Lines 79-90: the `tspanLines` computed for `text`. -/
def wrapText (text : JsString) (maxCharsPerLine : Nat) : List JsString :=
  let words := splitSpace text
  let st := words.foldl (wrapWord maxCharsPerLine) { line := [], tspanLines := [] }
  st.tspanLines ++ [trim st.line]

/-- Text obtained by joining lines with newline characters. -/
def joinLines : List JsString → JsString
  | [] => []
  | [l] => l
  | l :: ls => l ++ '\n' :: joinLines ls

/-- Invariant of the wrap loop: every flushed line is a trimmed text that is
within the limit or has no space, and the running line is empty or a text,
within the limit or without a space, followed by one space. -/
def WrapInv (maxChars : Nat) (st : WrapState) : Prop :=
  (∀ l ∈ st.tspanLines, (∃ x, l = trim x) ∧ (l.length ≤ maxChars ∨ ' ' ∉ l)) ∧
  (st.line = [] ∨ ∃ body, st.line = body ++ [' '] ∧ (body.length ≤ maxChars ∨ ' ' ∉ body))

/-! ## 4. `createNode`, `createLine`, `renderElements` (lines 70-143) -/

/-- A JS exception. -/
inductive JsError where
  | typeError
  | referenceError
  deriving DecidableEq, Repr

/-- Constant `maxCharsPerLine` of `createNode`. -/
def maxCharsPerLine ( isRoot : Bool) : Nat := if isRoot then 18 else 16
/-- Constant `lineHeight` of `createNode`. -/
def lineHeight : Nat := 16
/-- Constant `nodePadding.vertical` of `createNode`. -/
def verticalPadding ( isRoot : Bool) : Nat := if isRoot then 15 else 12
/-- Constant `rectWidth` of `createNode`. -/
def rectWidth ( isRoot : Bool) : Nat := if isRoot then 160 else 140
/-- Attribute `font-size` of the text element. -/
def fontSize ( isRoot : Bool) : Nat := if isRoot then 14 else 12
/-- Attribute `fill` of the rect element. -/
def rectFill ( isRoot : Bool) : String := if isRoot then "#3b82f6" else "#10b981"

/-- The `g` element built by `createNode`: its translation, the text element
(font size, `y`, one `tspan` per wrapped line) and the rect element. -/
structure Shape (α : Type) where
  x : α
  y : α
  fontSize : Nat
  tspans : List JsString
  textY : α
  rectX : α
  rectY : α
  rectWidth : α
  rectHeight : α
  fill : String

/-- Function `createNode(text, x, y, isRoot)`; `text.split` throws a
`TypeError` when `text` is `undefined`. -/
def createNode {α : Type} [Field α] (text : Option JsString) (x y : α) ( isRoot : Bool) :
    Except JsError (Shape α) :=
  match text with
  | none => .error .typeError
  | some text =>
      let tspanLines := wrapText text (maxCharsPerLine isRoot)
      let rectHeight : α := ((tspanLines.length : α) * (lineHeight : α))
        + ((verticalPadding isRoot : α) * 2)
      let textYOffset : α := -(rectHeight / 2) + (lineHeight : α) + (verticalPadding isRoot : α)
        - ((lineHeight : α) / 4)
      .ok { x := x, y := y, fontSize := fontSize isRoot, tspans := tspanLines,
            textY := textYOffset,
            rectX := -(rectWidth isRoot : α) / 2, rectY := -rectHeight / 2,
            rectWidth := (rectWidth isRoot : α), rectHeight := rectHeight,
            fill := rectFill isRoot }

/-- A child of the svg element. `node` is ghost: the path of the tree node the
element was created for (for a line, the path of the child it leads to). -/
inductive Element (α : Type) where
  | line (node : List Nat) (x1 y1 x2 y2 : α)
  | group (node : List Nat) (shape : Shape α)

namespace Element
variable {α : Type}

/-- Whether the element is a `line`. -/
def isLine : Element α → Bool
  | .line _ _ _ _ _ => true
  | .group _ _ => false

/-- Whether the element is a node group. -/
def isGroup : Element α → Bool
  | .line _ _ _ _ _ => false
  | .group _ _ => true

/-- Path of the tree node the element was created for. -/
def node : Element α → List Nat
  | .line p _ _ _ _ => p
  | .group p _ => p

end Element

/-- Function `createLine(x1, y1, x2, y2)`; `node` is the ghost path of the child
the line leads to. -/
def createLine {α : Type} (node : List Nat) (x1 y1 x2 y2 : α) : Element α :=
  .line node x1 y1 x2 y2

mutual
/-- Function `renderElements(node, isRoot)` run on the svg children `svg`;
`path` is the ghost path of `node`. Gives the svg children afterwards. -/
def renderElements {α : Type} [Field α] :
    Node (Placed α) → Bool → List Nat → List (Element α) → Except JsError (List (Element α))
  | .mk title none p, isRoot, path, svg =>
      match createNode title p.x p.y isRoot with
      | .error e => .error e
      | .ok nodeElement => .ok (svg ++ [.group path nodeElement])
  | .mk title (some cs) p, isRoot, path, svg =>
      match renderElements.forEach cs p.x p.y path 0 svg with
      | .error e => .error e
      | .ok svg1 =>
          match createNode title p.x p.y isRoot with
          | .error e => .error e
          | .ok nodeElement => .ok (svg1 ++ [.group path nodeElement])
/-- Loop `node.children.forEach(child => {...})` of lines 134-138 for the node
at `(nx, ny)`; `i` is the index of the first child of the list. -/
def renderElements.forEach {α : Type} [Field α] :
    List (Node (Placed α)) → α → α → List Nat → Nat → List (Element α) →
      Except JsError (List (Element α))
  | [], _, _, _, _, svg => .ok svg
  | child :: rest, nx, ny, path, i, svg =>
      match renderElements child false (path ++ [i])
          (svg ++ [createLine (path ++ [i]) nx ny child.ann.x child.ann.y]) with
      | .error e => .error e
      | .ok svg1 => renderElements.forEach rest nx ny path (i + 1) svg1
end

/-! ## 5. `drawMindMap` (lines 2-146) -/

/-- The svg element: its `viewBox` and its children in document order. -/
structure Svg (α : Type) where
  viewBox : ViewBox α
  children : List (Element α)

/-- The container element: the markup last assigned to `innerHTML` and the
elements appended since. -/
structure Container (α : Type) where
  innerHTML : String
  appended : List (Svg α)

/-- What a call of `drawMindMap` leaves: the container, the annotated tree when
annotations were written on `data`, and the exception when one was thrown. -/
structure DrawResult (α : Type) where
  container : Option (Container α)
  annotated : Option (Node (Placed α))
  thrown : Option JsError

/-- Markup of the invalid-input placeholder. -/
def invalidMarkup : String := "<p>Invalid mind map data received.</p>"

/-- Test `!data.title`: the title is absent or the empty string. -/
def titleFalsy (title : Option JsString) : Bool :=
  match title with
  | none => true
  | some [] => true
  | some (_ :: _) => false

/-- Function `drawMindMap(container, data)`; `none` is `null`/`undefined`. -/
def drawMindMap {α : Type} [LinearOrderedField α] (M : JsMath α)
    (container : Option (Container α)) (data : Option (Node Unit)) : DrawResult α :=
  match container with
  | none =>
      -- `!container` holds, then `container.innerHTML = ...` throws
      { container := none, annotated := none, thrown := some .typeError }
  | some _ =>
      let invalid : DrawResult α :=
        { container := some { innerHTML := invalidMarkup, appended := [] },
          annotated := none, thrown := none }
      match data with
      | none => invalid
      | some data =>
          if titleFalsy data.title then invalid
          else
            let cleared : Container α := { innerHTML := "", appended := [] }
            let counted := (countLeafNodes data).1
            let laid := layoutRoot M counted
            let svg0 : Svg α := { viewBox := viewBoxOf laid.2, children := [] }
            match renderElements laid.1 true [] svg0.children with
            | .error e =>
                { container := some cleared, annotated := some laid.1, thrown := some e }
            | .ok children =>
                { container := some { cleared with
                    appended := cleared.appended ++ [{ svg0 with children := children }] },
                  annotated := some laid.1, thrown := none }

/-! ## 6. The demystify click handler (`static/js/demystify.js`, lines 79-94) -/

/-- The global function bindings a page script can call by name, as far as the
mind map is concerned: a name is unbound (`none`) or bound to a function of
`(container, data)`. -/
abbrev GlobalScope (α : Type) :=
  String → Option (Option (Container α) → Option (Node Unit) → DrawResult α)

/-- The bindings `mindmap.js` adds to the global scope: its only top-level
declaration is `function drawMindMap(container, data)`. -/
def mindmapJsScope {α : Type} [LinearOrderedField α] (M : JsMath α) : GlobalScope α :=
  fun name => if name = "drawMindMap" then some (drawMindMap M) else none

/-- Message `showFeedback` displays: the success text, or the text of the
catch branch followed by the caught error's message. -/
inductive Feedback where
  | success (text : String)
  | failure (text : String) (error : JsError)
  deriving DecidableEq, Repr

/-- What the handler touches after the response is parsed: the element
`mindmapContainer` (`none` when `getElementById` found nothing), whether
`resultsContainer` is displayed, and the feedback shown. -/
structure HandlerState (α : Type) where
  mindmapContainer : Option (Container α)
  resultsShown : Bool
  feedback : Option Feedback

/-- Catch branch of the handler, lines 89-92. -/
def handlerCatch {α : Type} (st : HandlerState α) (error : JsError) : HandlerState α :=
  { st with feedback := some (.failure "Error: Unable to connect to the server. " error) }

/-- Lines 80-92 of the click handler, run in the global scope `scope` on the
parsed `data.mindmap_data` (`none` when falsy). Calling an unbound name throws
a `ReferenceError`; any exception lands in the catch branch. -/
def demystifyOnData {α : Type} (scope : GlobalScope α) (st : HandlerState α)
    (mindmap_data : Option (Node Unit)) : HandlerState α :=
  match mindmap_data with
  | some data =>
      match scope "renderMindMap" with
      | none => handlerCatch st .referenceError
      | some renderMindMap =>
          let r := renderMindMap st.mindmapContainer (some data)
          match r.thrown with
          | some e => handlerCatch { st with mindmapContainer := r.container } e
          | none =>
              { mindmapContainer := r.container, resultsShown := true,
                feedback := some (.success "Demystification successful!") }
  | none =>
      match st.mindmapContainer with
      | none => handlerCatch st .typeError
      | some _ =>
          { mindmapContainer := some
              { innerHTML := "<p>No mind map could be generated for this document.</p>",
                appended := [] },
            resultsShown := true,
            feedback := some (.success "Demystification successful!") }

/-- A tree the renderer accepts: the root title is a non-empty string and
every node has a title. -/
def ValidTree {A : Type} (t : Node A) : Prop :=
  titleFalsy t.title = false ∧ ∀ n ∈ t.subnodes, n.title.isSome = true

instance {A : Type} (t : Node A) : Decidable (ValidTree t) := by
  unfold ValidTree
  infer_instance

/-! ## Predicates used in the statements -/

section Predicates
variable {α : Type} [LinearOrderedField α]

/-- A finite lower bound `b` with `b ≤ v`. -/
def lowerOk (b : Option α) (v : α) : Prop :=
  match b with
  | some m => m ≤ v
  | none => False

/-- A finite upper bound `b` with `v ≤ b`. -/
def upperOk (b : Option α) (v : α) : Prop :=
  match b with
  | some m => v ≤ m
  | none => False

/-- The bounding box is finite and contains the rectangle
`[x - 160, x + 160] × [y - 80, y + 80]` that lines 38-41 add for a node at `(x, y)`. -/
def Covers (bb : BoundingBox α) (x y : α) : Prop :=
  lowerOk bb.minX (x - (nodeWidth : α)) ∧ upperOk bb.maxX (x + (nodeWidth : α)) ∧
  lowerOk bb.minY (y - (nodeHeight : α)) ∧ upperOk bb.maxY (y + (nodeHeight : α))

/-- The view box is finite and contains the rectangle of width `w` and height
`h` centred at `(x, y)`. -/
def ViewBox.ContainsRect (v : ViewBox α) (x y w h : α) : Prop :=
  match v.x, v.y, v.width, v.height with
  | some vx, some vy, some vw, some vh =>
      vx ≤ x - w / 2 ∧ x + w / 2 ≤ vx + vw ∧ vy ≤ y - h / 2 ∧ y + h / 2 ≤ vy + vh
  | _, _, _, _ => False

end Predicates

section Drawn
variable {α : Type} [Field α]

/-- Every node of the tree has a title. -/
def AllTitled {A : Type} (t : Node A) : Prop := ∀ n ∈ t.subnodes, n.title.isSome = true

instance {A : Type} (t : Node A) : Decidable (AllTitled t) := by
  unfold AllTitled
  infer_instance

/-- The node group appended for a node: `createNode`'s result tagged with the
node's path; nothing when `createNode` throws. -/
def groupOf (title : Option JsString) (x y : α) ( isRoot : Bool) (path : List Nat) :
    List (Element α) :=
  match createNode title x y isRoot with
  | .error _ => []
  | .ok nodeElement => [.group path nodeElement]

mutual
/-- The elements a `renderElements(node, isRoot)` call appends, in order, when
no `createNode` call throws: for each child its line and then the child's own
elements, and last the node's group. -/
def drawn : Node (Placed α) → Bool → List Nat → List (Element α)
  | .mk title none p, isRoot, path => groupOf title p.x p.y isRoot path
  | .mk title (some cs) p, isRoot, path =>
      drawnList cs p.x p.y path 0 ++ groupOf title p.x p.y isRoot path
/-- The elements the `forEach` loop of `renderElements` appends for the
children `cs`, whose first element has index `i`. -/
def drawnList : List (Node (Placed α)) → α → α → List Nat → Nat → List (Element α)
  | [], _, _, _, _ => []
  | child :: rest, nx, ny, path, i =>
      (.line (path ++ [i]) nx ny child.ann.x child.ann.y :: drawn child false (path ++ [i]))
        ++ drawnList rest nx ny path (i + 1)
end

end Drawn

namespace Element
variable {α : Type}

/-- The element is the line created for the edge into the node at path `q`. -/
def isLineTo (q : List Nat) (e : Element α) : Bool := e.isLine && (e.node == q)

/-- The element is the group created for the node at path `p`. -/
def isGroupOf (p : List Nat) (e : Element α) : Bool := e.isGroup && (e.node == p)

/-- The element is a node group carrying a root-role attribute: the root fill
`#3b82f6` or the root font size 14. -/
def rootStyled : Element α → Bool
  | .line _ _ _ _ _ => false
  | .group _ g => g.fill == "#3b82f6" || g.fontSize == 14

end Element

/-! ## 7. The angle arithmetic of lines 44-56, generic in the arithmetic

The loop of `calculateLayout` computes the children's ranges with `/`, `-`,
`*` and `+` on JS numbers. `childRanges` is that computation for any
arithmetic; `fieldArith` is the exact arithmetic `calculateLayout` is embedded
with, `F64.arith` the IEEE 754 binary64 arithmetic (round to nearest, ties to
even) the source runs on. -/

/-- The operations on numbers the angle computation uses. -/
structure Arith (β : Type) where
  ofNat : Nat → β
  add : β → β → β
  sub : β → β → β
  mul : β → β → β
  div : β → β → β

/-- Lines 44, 49, 55, 56: the ranges `[currentAngle, currentAngle + angleSpan]`
the loop hands to the children, given the children's `leafCount`s, the node's
`leafCount`, the node's `angleRange` and the running `currentAngle`. -/
def childRanges {β : Type} (A : Arith β) : List Nat → Nat → β × β → β → List (β × β)
  | [], _, _, _ => []
  | childLeafCount :: rest, leafCount, angleRange, currentAngle =>
      let angleSpan := A.mul (A.div (A.ofNat childLeafCount) (A.ofNat leafCount))
        (A.sub angleRange.2 angleRange.1)
      (currentAngle, A.add currentAngle angleSpan)
        :: childRanges A rest leafCount angleRange (A.add currentAngle angleSpan)

/-- Exact arithmetic of a field. -/
def fieldArith {α : Type} [Field α] : Arith α :=
  { ofNat := fun n => (n : α)
    add := fun a b => a + b
    sub := fun a b => a - b
    mul := fun a b => a * b
    div := fun a b => a / b }

/-- A finite non-negative binary64 number `v`, stored as the natural number
`v * 2 ^ 1074`: every finite double is a whole multiple of `2 ^ -1074`.
Negative numbers, infinities and NaN are outside this model. -/
abbrev F64 := Nat

namespace F64

/-- The double `m * 2 ^ -k` (for `k ≤ 1074`). -/
def scaled (m k : Nat) : F64 := m * 2 ^ (1074 - k)

/-- The integer nearest to `N / D`, a tie going to the even one. -/
def roundHalfEven (N D : Nat) : Nat :=
  let q := N / D
  let r := N % D
  if 2 * r < D then q
  else if D < 2 * r then q + 1
  else if q % 2 = 0 then q else q + 1

/-- How many low bits of the integer `q` do not fit in 53 significant bits:
the least `s` with `q / 2 ^ s < 2 ^ 53`. The first argument bounds the search;
2046 halvings are enough for every finite double. -/
def dropBits : Nat → Nat → Nat
  | 0, _ => 0
  | fuel + 1, q => if q < 2 ^ 53 then 0 else dropBits fuel (q / 2) + 1

/-- Round to nearest, ties to even: the double nearest to the non-negative
rational `N / D` (counted in units of `2 ^ -1074`). A double keeps 53
significant bits, so the `s` lowest bits of a longer integer part are rounded
away. -/
def round (N D : Nat) : F64 :=
  let s := dropBits 2046 (N / D)
  roundHalfEven N (D * 2 ^ s) * 2 ^ s

/-- The double of a natural number. -/
def ofNat (k : Nat) : F64 := round (k * 2 ^ 1074) 1

/-- Operation `a + b` on doubles. -/
def add (a b : F64) : F64 := round (a + b) 1

/-- Operation `a - b` on doubles, for `b ≤ a`. -/
def sub (a b : F64) : F64 := round (a - b) 1

/-- Operation `a * b` on doubles. -/
def mul (a b : F64) : F64 := round (a * b) (2 ^ 1074)

/-- Operation `a / b` on doubles, for `b` not zero. -/
def div (a b : F64) : F64 := round (a * 2 ^ 1074) b

/-- Constant `Math.PI`, the double `0x400921FB54442D18`. -/
def PI : F64 := scaled 7074237752028440 51

/-- The binary64 arithmetic. -/
def arith : Arith F64 :=
  { ofNat := ofNat, add := add, sub := sub, mul := mul, div := div }

end F64

/-- A root with twelve leaf children. -/
def twelveLeafTree : Node Unit :=
  .mk (some "Root".toList) (some (List.replicate 12 (.mk (some "Leaf".toList) none ()))) ()

/-! # Theorems -/

/-! ### Facts about `countLeafNodes` -/

mutual
theorem countLeafNodes_snd_eq : ∀ t : Node Unit, (countLeafNodes t).2 = t.numChildless
  | .mk _ none _ => by simp [countLeafNodes, Node.numChildless]
  | .mk _ (some []) _ => by simp [countLeafNodes, Node.numChildless]
  | .mk _ (some (c :: cs)) _ => by
      have h := countLeafNodes_forEach_snd_eq (c :: cs) 0
      simp only [countLeafNodes, Node.numChildless]
      omega
theorem countLeafNodes_forEach_snd_eq : ∀ (l : List (Node Unit)) (count : Nat),
    (countLeafNodes.forEach l count).2 = count + Node.numChildlessList l
  | [], count => by simp [countLeafNodes.forEach, Node.numChildlessList]
  | c :: cs, count => by
      have h1 := countLeafNodes_snd_eq c
      have h2 := countLeafNodes_forEach_snd_eq cs (count + (countLeafNodes c).2)
      simp only [countLeafNodes.forEach, Node.numChildlessList]
      omega
end

theorem countLeafNodes_ann_eq (t : Node Unit) :
    (countLeafNodes t).1.ann = (countLeafNodes t).2 := by
  rcases t with ⟨title, _ | _ | ⟨c, cs⟩, u⟩ <;> simp [countLeafNodes, Node.ann]

theorem countLeafNodes_forEach_sum : ∀ (l : List (Node Unit)) (count : Nat),
    (countLeafNodes.forEach l count).2
      = count + ((countLeafNodes.forEach l count).1.map Node.ann).sum
  | [], count => by simp [countLeafNodes.forEach]
  | c :: cs, count => by
      have h2 := countLeafNodes_forEach_sum cs (count + (countLeafNodes c).2)
      have h1 := countLeafNodes_ann_eq c
      simp only [countLeafNodes.forEach, List.map_cons, List.sum_cons]
      omega

theorem countLeafNodes_forEach_ne_nil (c : Node Unit) (cs : List (Node Unit)) (count : Nat) :
    ∃ d ds, (countLeafNodes.forEach (c :: cs) count).1 = d :: ds := by
  simp [countLeafNodes.forEach]

mutual
theorem countLeafNodes_rule :
    ∀ t : Node Unit, ∀ n ∈ (countLeafNodes t).1.subnodes, leafCountRule n
  | .mk _ none _ => by
      intro n hn
      simp [countLeafNodes, Node.subnodes] at hn
      subst hn
      simp [leafCountRule, Node.ann, Node.children]
  | .mk _ (some []) _ => by
      intro n hn
      simp [countLeafNodes, Node.subnodes, Node.subnodesList] at hn
      subst hn
      simp [leafCountRule, Node.ann, Node.children]
  | .mk _ (some (c :: cs)) _ => by
      intro n hn
      simp only [countLeafNodes, Node.subnodes, List.mem_cons] at hn
      rcases hn with hn | hn
      · subst hn
        obtain ⟨d, ds, hd⟩ := countLeafNodes_forEach_ne_nil c cs 0
        have hs := countLeafNodes_forEach_sum (c :: cs) 0
        simp only [leafCountRule, Node.ann, Node.children, hd] at hs ⊢
        omega
      · exact countLeafNodes_forEach_rule (c :: cs) 0 n hn
theorem countLeafNodes_forEach_rule : ∀ (l : List (Node Unit)) (count : Nat),
    ∀ n ∈ Node.subnodesList (countLeafNodes.forEach l count).1, leafCountRule n
  | [], count => by simp [countLeafNodes.forEach, Node.subnodesList]
  | c :: cs, count => by
      intro n hn
      simp only [countLeafNodes.forEach, Node.subnodesList, List.mem_append] at hn
      rcases hn with hn | hn
      · exact countLeafNodes_rule c n hn
      · exact countLeafNodes_forEach_rule cs _ n hn
end

mutual
theorem countLeafNodes_shape : ∀ t : Node Unit, (countLeafNodes t).1.mapAnn (fun _ => ()) = t
  | .mk _ none _ => by simp [countLeafNodes, Node.mapAnn]
  | .mk _ (some []) _ => by simp [countLeafNodes, Node.mapAnn, Node.mapAnnList]
  | .mk _ (some (c :: cs)) _ => by
      have h := countLeafNodes_forEach_shape (c :: cs) 0
      simp only [countLeafNodes, Node.mapAnn, h]
theorem countLeafNodes_forEach_shape : ∀ (l : List (Node Unit)) (count : Nat),
    Node.mapAnnList (fun _ => ()) (countLeafNodes.forEach l count).1 = l
  | [], count => by simp [countLeafNodes.forEach, Node.mapAnnList]
  | c :: cs, count => by
      have h1 := countLeafNodes_shape c
      have h2 := countLeafNodes_forEach_shape cs (count + (countLeafNodes c).2)
      simp only [countLeafNodes.forEach, Node.mapAnnList, h1, h2]
end

/-- C1. `countLeafNodes(root)` returns the number of childless nodes of the
tree and stores that number as `leafCount` on the root; the annotated tree is
the input tree (same titles and children), and every node of it carries
`leafCount` 1 when it has no children (absent or empty array) and the sum of
its children's `leafCount` otherwise. -/
theorem countLeafNodes_correct (t : Node Unit) :
    (countLeafNodes t).2 = t.numChildless ∧
    (countLeafNodes t).1.ann = t.numChildless ∧
    (countLeafNodes t).1.mapAnn (fun _ => ()) = t ∧
    ∀ n ∈ (countLeafNodes t).1.subnodes, leafCountRule n :=
  ⟨countLeafNodes_snd_eq t, (countLeafNodes_ann_eq t).trans (countLeafNodes_snd_eq t),
    countLeafNodes_shape t, countLeafNodes_rule t⟩

/-- Witness for C1: the lease tree has two childless nodes; 2 is returned and
stored on the root. -/
theorem countLeafNodes_correct_witness :
    (countLeafNodes leaseTree).2 = 2 ∧ (countLeafNodes leaseTree).1.ann = 2 ∧
    leaseTree.numChildless = 2 :=
  ⟨(countLeafNodes_correct leaseTree).1.trans (by decide),
    (countLeafNodes_correct leaseTree).2.1.trans (by decide), by decide⟩

/-! ### Facts about `calculateLayout`: annotations and spans -/

section LayoutFacts
variable {α : Type} [LinearOrderedField α]

theorem Node.mem_subnodes_self {A : Type} (n : Node A) : n ∈ n.subnodes := by
  rcases n with ⟨t, _ | cs, a⟩ <;> simp [Node.subnodes]

theorem calculateLayout_ann (M : JsMath α) (t : Node Nat) (x y : α) (level : Nat)
    (range : α × α) (bb : BoundingBox α) :
    (calculateLayout M t x y level range bb).1.ann = ⟨t.ann, x, y, level, range.1, range.2⟩ := by
  rcases t with ⟨title, _ | _ | ⟨c, cs⟩, lc⟩ <;> simp [calculateLayout, Node.ann]

theorem Node.mem_subnodes_child {A : Type} {n : Node A} {cs : List (Node A)}
    (h : n.children = some cs) {c : Node A} (hc : c ∈ cs) {m : Node A} (hm : m ∈ c.subnodes) :
    m ∈ n.subnodes := by
  rcases n with ⟨t, _ | ds, a⟩
  · simp [Node.children] at h
  · simp only [Node.children, Option.some.injEq] at h
    subst h
    simp only [Node.subnodes, List.mem_cons]
    right
    clear a t
    induction ds with
    | nil => simp at hc
    | cons d ds ih =>
      simp only [Node.subnodesList, List.mem_append]
      rcases List.mem_cons.mp hc with rfl | hc
      · exact Or.inl hm
      · exact Or.inr (ih hc)

theorem leafCount_pos : ∀ t : Node Nat, (∀ n ∈ t.subnodes, leafCountRule n) → 0 < t.ann
  | .mk _ none _ => by
      intro h
      have := h _ (Node.mem_subnodes_self _)
      simp [leafCountRule, Node.ann, Node.children] at this ⊢
      omega
  | .mk _ (some []) _ => by
      intro h
      have := h _ (Node.mem_subnodes_self _)
      simp [leafCountRule, Node.ann, Node.children] at this ⊢
      omega
  | .mk t (some (c :: cs)) a => by
      intro h
      have h0 := h _ (Node.mem_subnodes_self _)
      have hc : 0 < c.ann := leafCount_pos c (fun n hn =>
        h n (@Node.mem_subnodes_child _ (.mk t (some (c :: cs)) a) (c :: cs) rfl c
          (List.mem_cons_self c cs) n hn))
      simp only [leafCountRule, Node.children, List.map_cons, List.sum_cons] at h0
      omega

theorem forEach_spans (M : JsMath α) (lc : Nat) (x y : α) (level : Nat) (range : α × α)
    (dist : α) : ∀ (l : List (Node Nat)) (cur : α) (bb : BoundingBox α),
    IsPartition ((calculateLayout.forEach M l lc x y level range dist cur bb).1.map span) cur
        (calculateLayout.forEach M l lc x y level range dist cur bb).2.1 ∧
    (calculateLayout.forEach M l lc x y level range dist cur bb).2.1
        = cur + (((l.map Node.ann).sum : Nat) : α) / (lc : α) * (range.2 - range.1) ∧
    ((calculateLayout.forEach M l lc x y level range dist cur bb).1.map spanWidth).sum
        = (calculateLayout.forEach M l lc x y level range dist cur bb).2.1 - cur ∧
    ∀ d ∈ (calculateLayout.forEach M l lc x y level range dist cur bb).1,
      spanWidth d = ((d.ann.leafCount : α) / (lc : α)) * (range.2 - range.1)
  | [], cur, bb => by simp [calculateLayout.forEach, IsPartition]
  | c :: cs, cur, bb => by
      obtain ⟨h1, h2, h3, h4⟩ := forEach_spans M lc x y level range dist cs
        (cur + ((c.ann : α) / (lc : α)) * (range.2 - range.1))
        (calculateLayout M c
          (x + dist * M.cos (cur + ((c.ann : α) / (lc : α)) * (range.2 - range.1) / 2))
          (y + dist * M.sin (cur + ((c.ann : α) / (lc : α)) * (range.2 - range.1) / 2))
          (level + 1) (cur, cur + ((c.ann : α) / (lc : α)) * (range.2 - range.1)) bb).2
      simp only [calculateLayout.forEach, List.map_cons, List.sum_cons, span, IsPartition,
        calculateLayout_ann, spanWidth, List.mem_cons, forall_eq_or_imp]
      refine ⟨⟨trivial, h1⟩, ?_, ?_, ?_, h4⟩
      · rw [h2]; push_cast; ring
      · rw [h3]; ring
      · ring

mutual
theorem Node.subnodes_trans {A : Type} : ∀ (n : Node A) (m k : Node A),
    m ∈ n.subnodes → k ∈ m.subnodes → k ∈ n.subnodes
  | .mk t none a, m, k => by
      intro hm hk
      simp only [Node.subnodes, List.mem_singleton] at hm
      subst hm
      exact hk
  | .mk t (some cs) a, m, k => by
      intro hm hk
      simp only [Node.subnodes, List.mem_cons] at hm
      rcases hm with hm | hm
      · subst hm
        exact hk
      · simp only [Node.subnodes, List.mem_cons]
        exact Or.inr (Node.subnodesList_trans cs m k hm hk)
theorem Node.subnodesList_trans {A : Type} : ∀ (l : List (Node A)) (m k : Node A),
    m ∈ Node.subnodesList l → k ∈ m.subnodes → k ∈ Node.subnodesList l
  | [], m, k => by
      intro hm
      simp [Node.subnodesList] at hm
  | c :: cs, m, k => by
      intro hm hk
      simp only [Node.subnodesList, List.mem_append] at hm ⊢
      rcases hm with hm | hm
      · exact Or.inl (Node.subnodes_trans c m k hm hk)
      · exact Or.inr (Node.subnodesList_trans cs m k hm hk)
end

mutual
theorem calculateLayout_subcall (M : JsMath α) : ∀ (t : Node Nat) (x y : α) (level : Nat)
    (range : α × α) (bb : BoundingBox α),
    ∀ n ∈ (calculateLayout M t x y level range bb).1.subnodes,
      ∃ t2 ∈ t.subnodes, ∃ x2 y2 level2 range2 bb2,
        n = (calculateLayout M t2 x2 y2 level2 range2 bb2).1
  | .mk title none lc, x, y, level, range, bb => by
      intro n hn
      refine ⟨_, Node.mem_subnodes_self _, x, y, level, range, bb, ?_⟩
      simpa [calculateLayout, Node.subnodes] using hn
  | .mk title (some []) lc, x, y, level, range, bb => by
      intro n hn
      refine ⟨_, Node.mem_subnodes_self _, x, y, level, range, bb, ?_⟩
      simpa [calculateLayout, Node.subnodes, Node.subnodesList] using hn
  | .mk title (some (c :: cs)) lc, x, y, level, range, bb => by
      intro n hn
      simp only [calculateLayout, Node.subnodes, List.mem_cons] at hn
      rcases hn with hn | hn
      · refine ⟨_, Node.mem_subnodes_self _, x, y, level, range, bb, ?_⟩
        simpa [calculateLayout] using hn
      · obtain ⟨t2, ht2, rest⟩ := calculateLayout_forEach_subcall M (c :: cs) _ _ _ _ _ _ _ _ n hn
        exact ⟨t2, by simp [Node.subnodes, ht2], rest⟩
theorem calculateLayout_forEach_subcall (M : JsMath α) : ∀ (l : List (Node Nat)) (lc : Nat)
    (x y : α) (level : Nat) (range : α × α) (dist cur : α) (bb : BoundingBox α),
    ∀ n ∈ Node.subnodesList (calculateLayout.forEach M l lc x y level range dist cur bb).1,
      ∃ t2 ∈ Node.subnodesList l, ∃ x2 y2 level2 range2 bb2,
        n = (calculateLayout M t2 x2 y2 level2 range2 bb2).1
  | [], lc, x, y, level, range, dist, cur, bb => by
      intro n hn
      simp [calculateLayout.forEach, Node.subnodesList] at hn
  | c :: cs, lc, x, y, level, range, dist, cur, bb => by
      intro n hn
      simp only [calculateLayout.forEach, Node.subnodesList, List.mem_append] at hn
      rcases hn with hn | hn
      · obtain ⟨t2, ht2, rest⟩ := calculateLayout_subcall M c _ _ _ _ _ n hn
        exact ⟨t2, by simp [Node.subnodesList, ht2], rest⟩
      · obtain ⟨t2, ht2, rest⟩ := calculateLayout_forEach_subcall M cs _ _ _ _ _ _ _ _ n hn
        exact ⟨t2, by simp [Node.subnodesList, ht2], rest⟩
end

theorem calculateLayout_spansExact_root (M : JsMath α) (t : Node Nat)
    (hrule : leafCountRule t) (hpos : 0 < t.ann) (x y : α) (level : Nat)
    (range : α × α) (bb : BoundingBox α) :
    SpansExact (calculateLayout M t x y level range bb).1 := by
  rcases t with ⟨title, _ | _ | ⟨c, cs⟩, lc⟩
  · intro ds hds hne
    simp [calculateLayout, Node.children] at hds
  · intro ds hds hne
    simp only [calculateLayout, Node.children, Option.some.injEq] at hds
    exact absurd hds.symm hne
  · intro ds hds hne
    simp only [calculateLayout, Node.children, Option.some.injEq] at hds
    subst hds
    obtain ⟨h1, h2, h3, h4⟩ := forEach_spans M lc x y level range
      (300 - ((level : α) * 50)) (c :: cs) range.1 (bb.visit x y)
    simp only [leafCountRule, Node.children, Node.ann] at hrule hpos
    have hlc : (lc : α) ≠ 0 := Nat.cast_ne_zero.mpr (by omega)
    have hend : (calculateLayout.forEach M (c :: cs) lc x y level range
        (300 - ((level : α) * 50)) range.1 (bb.visit x y)).2.1 = range.2 := by
      rw [h2, ← hrule, div_self hlc]; ring
    simp only [Node.ann]
    rw [hend] at h1 h3
    exact ⟨h1, h3, h4⟩

theorem calculateLayout_spansExact (M : JsMath α) (t : Node Nat)
    (hrule : ∀ n ∈ t.subnodes, leafCountRule n) (x y : α) (level : Nat)
    (range : α × α) (bb : BoundingBox α) :
    ∀ n ∈ (calculateLayout M t x y level range bb).1.subnodes, SpansExact n := by
  intro n hn
  obtain ⟨t2, ht2, x2, y2, level2, range2, bb2, rfl⟩ :=
    calculateLayout_subcall M t x y level range bb n hn
  exact calculateLayout_spansExact_root M t2 (hrule t2 ht2)
    (leafCount_pos t2 (fun k hk => hrule k (Node.subnodes_trans t t2 k ht2 hk))) _ _ _ _ _

end LayoutFacts

/-- C2. In `calculateLayout`, run on a tree annotated by `countLeafNodes` from
any position, level and range, every node with at least one child hands its
allotted range `[angleStart, angleEnd]` to its children exactly: the children's
spans tile the range in order (first starts at `angleStart`, each next starts
where the previous ends, last ends at `angleEnd`), their widths add up to
`angleEnd - angleStart`, and each child's width is its
`leafCount / node.leafCount` share. -/
theorem calculateLayout_children_partition {α : Type} [LinearOrderedField α] (M : JsMath α)
    (t : Node Unit) (x y : α) (level : Nat) (range : α × α) (bb : BoundingBox α) :
    ∀ n ∈ (calculateLayout M (countLeafNodes t).1 x y level range bb).1.subnodes,
      ∀ cs, n.children = some cs → cs ≠ [] →
        IsPartition (cs.map span) n.ann.angleStart n.ann.angleEnd ∧
        (cs.map spanWidth).sum = n.ann.angleEnd - n.ann.angleStart ∧
        ∀ c ∈ cs, spanWidth c
          = ((c.ann.leafCount : α) / (n.ann.leafCount : α))
              * (n.ann.angleEnd - n.ann.angleStart) :=
  calculateLayout_spansExact M (countLeafNodes t).1 (countLeafNodes_rule t) x y level range bb

/-- Witness for C2: the root of the lease tree, laid out on the full circle,
gives each of its two leaf children a span of width pi. -/
theorem calculateLayout_children_partition_witness :
    ((layoutRoot (⟨Real.cos, Real.sin, Real.pi⟩ : JsMath ℝ)
        (countLeafNodes leaseTree).1).1.childList.map spanWidth = [Real.pi, Real.pi]) ∧
    IsPartition ((layoutRoot (⟨Real.cos, Real.sin, Real.pi⟩ : JsMath ℝ)
        (countLeafNodes leaseTree).1).1.childList.map span) 0 (2 * Real.pi) := by
  have h := calculateLayout_children_partition (⟨Real.cos, Real.sin, Real.pi⟩ : JsMath ℝ)
    leaseTree 0 0 0 (0, 2 * Real.pi) BoundingBox.init _ (Node.mem_subnodes_self _) _ rfl
    (by simp [leaseTree, countLeafNodes, countLeafNodes.forEach, calculateLayout,
          calculateLayout.forEach])
  refine ⟨?_, ?_⟩
  · simp [layoutRoot, leaseTree, countLeafNodes, countLeafNodes.forEach, calculateLayout,
      calculateLayout.forEach, Node.childList, Node.children, spanWidth, Node.ann]
  · simpa [layoutRoot, Node.childList, calculateLayout_ann] using h.1

/-! ### Facts about `calculateLayout`: positions -/

section PositionFacts
variable {α : Type} [LinearOrderedField α]

theorem forEach_positions (M : JsMath α) (lc : Nat) (x y : α) (level : Nat) (range : α × α)
    (dist : α) : ∀ (l : List (Node Nat)) (cur : α) (bb : BoundingBox α),
    ∀ d ∈ (calculateLayout.forEach M l lc x y level range dist cur bb).1,
      d.ann.level = level + 1 ∧
      d.ann.x = x + dist * M.cos (d.ann.angleStart + (d.ann.angleEnd - d.ann.angleStart) / 2) ∧
      d.ann.y = y + dist * M.sin (d.ann.angleStart + (d.ann.angleEnd - d.ann.angleStart) / 2)
  | [], cur, bb => by simp [calculateLayout.forEach]
  | c :: cs, cur, bb => by
      intro d hd
      simp only [calculateLayout.forEach, List.mem_cons] at hd
      rcases hd with hd | hd
      · subst hd
        simp only [calculateLayout_ann, add_sub_cancel_left, and_self]
      · exact forEach_positions M lc x y level range dist cs _ _ d hd

theorem calculateLayout_childrenOffset_root (M : JsMath α) (t : Node Nat) (x y : α)
    (level : Nat) (range : α × α) (bb : BoundingBox α) :
    ChildrenOffset M (calculateLayout M t x y level range bb).1 := by
  rcases t with ⟨title, _ | _ | ⟨c, cs⟩, lc⟩
  · intro ds hds
    simp [calculateLayout, Node.children] at hds
  · intro ds hds
    simp only [calculateLayout, Node.children, Option.some.injEq] at hds
    subst hds
    simp
  · intro ds hds d hd
    simp only [calculateLayout, Node.children, Option.some.injEq] at hds
    subst hds
    simpa [calculateLayout, Node.ann] using forEach_positions M lc x y level range _ _ _ _ d hd

theorem calculateLayout_childrenOffset (M : JsMath α) (t : Node Nat) (x y : α) (level : Nat)
    (range : α × α) (bb : BoundingBox α) :
    ∀ n ∈ (calculateLayout M t x y level range bb).1.subnodes, ChildrenOffset M n := by
  intro n hn
  obtain ⟨t2, _, x2, y2, level2, range2, bb2, rfl⟩ :=
    calculateLayout_subcall M t x y level range bb n hn
  exact calculateLayout_childrenOffset_root M t2 _ _ _ _ _

end PositionFacts

/-- Euclidean length of an offset `d * (cos a, sin a)` over the reals. -/
theorem sqrt_offset (px py d a : ℝ) :
    Real.sqrt ((px + d * Real.cos a - px) ^ 2 + (py + d * Real.sin a - py) ^ 2) = |d| := by
  have h : (px + d * Real.cos a - px) ^ 2 + (py + d * Real.sin a - py) ^ 2 = d ^ 2 := by
    have := Real.cos_sq_add_sin_sq a
    nlinarith [this]
  rw [h, Real.sqrt_sq_eq_abs]

/-- C3 (amended). `calculateLayout` does not clamp the radial distance. Over
the reals, the node the call is made on is recorded at the call's level, and
for every node `n` of the laid-out tree and every child `c` of it: `c` is one
level deeper, `c` sits at `n`'s position plus
`(300 - 50 * level n) * (cos angle, sin angle)` where `angle` is the midpoint of
`c`'s span, and the Euclidean distance between the two positions is
`|300 - 50 * level n|`. -/
theorem calculateLayout_distance (t : Node Nat) (x y : ℝ) (level : Nat) (range : ℝ × ℝ)
    (bb : BoundingBox ℝ) :
    (calculateLayout (⟨Real.cos, Real.sin, Real.pi⟩ : JsMath ℝ) t x y level range bb).1.ann.level
      = level ∧
    ∀ n ∈ (calculateLayout (⟨Real.cos, Real.sin, Real.pi⟩ : JsMath ℝ) t x y level range
        bb).1.subnodes,
      ∀ cs, n.children = some cs → ∀ c ∈ cs,
        c.ann.level = n.ann.level + 1 ∧
        c.ann.x = n.ann.x + (300 - (n.ann.level : ℝ) * 50)
          * Real.cos (c.ann.angleStart + (c.ann.angleEnd - c.ann.angleStart) / 2) ∧
        c.ann.y = n.ann.y + (300 - (n.ann.level : ℝ) * 50)
          * Real.sin (c.ann.angleStart + (c.ann.angleEnd - c.ann.angleStart) / 2) ∧
        Real.sqrt ((c.ann.x - n.ann.x) ^ 2 + (c.ann.y - n.ann.y) ^ 2)
          = |300 - (n.ann.level : ℝ) * 50| := by
  refine ⟨by rw [calculateLayout_ann], ?_⟩
  intro n hn cs hcs c hc
  obtain ⟨h1, h2, h3⟩ := calculateLayout_childrenOffset _ t x y level range bb n hn cs hcs c hc
  refine ⟨h1, h2, h3, ?_⟩
  rw [h2, h3]
  exact sqrt_offset _ _ _ _

/-- C3 fails as stated: in the chain of 8 single-child nodes the node at level
6 and its child get the same position (radial distance `300 - 50 * 6 = 0`), so
no positive `minDistance` makes every parent-child distance equal to
`max minDistance (300 - 50 * level)`. -/
theorem calculateLayout_distance_not_clamped :
    ¬ ∃ minDistance : ℝ, 0 < minDistance ∧
      ∀ n ∈ (layoutRoot (⟨Real.cos, Real.sin, Real.pi⟩ : JsMath ℝ)
          (countLeafNodes (chainTree 7)).1).1.subnodes,
        ∀ cs, n.children = some cs → ∀ c ∈ cs,
          Real.sqrt ((c.ann.x - n.ann.x) ^ 2 + (c.ann.y - n.ann.y) ^ 2)
            = max minDistance (300 - 50 * (n.ann.level : ℝ)) := by
  rintro ⟨m, hm, h⟩
  simp [layoutRoot, chainTree, countLeafNodes, countLeafNodes.forEach, calculateLayout,
    calculateLayout.forEach, Node.subnodes, Node.subnodesList, Node.children, Node.ann] at h
  have h6 := h.2.2.2.2.2.2
  norm_num at h6
  have hle : m ≤ max m 0 := le_max_left m 0
  linarith

/-- Witness for C3 (amended): in the lease tree the first child of the root
(level 0) lies at distance 300 from the root. -/
theorem calculateLayout_distance_witness :
    Real.sqrt
      ((((leasePlaced (⟨Real.cos, Real.sin, Real.pi⟩ : JsMath ℝ)).childList.headD
            (leasePlaced ⟨Real.cos, Real.sin, Real.pi⟩)).ann.x
          - (leasePlaced (⟨Real.cos, Real.sin, Real.pi⟩ : JsMath ℝ)).ann.x) ^ 2
        + (((leasePlaced (⟨Real.cos, Real.sin, Real.pi⟩ : JsMath ℝ)).childList.headD
            (leasePlaced ⟨Real.cos, Real.sin, Real.pi⟩)).ann.y
          - (leasePlaced (⟨Real.cos, Real.sin, Real.pi⟩ : JsMath ℝ)).ann.y) ^ 2) = 300 := by
  have h := (calculateLayout_distance (countLeafNodes leaseTree).1 0 0 0 (0, 2 * Real.pi)
    BoundingBox.init).2 _ (Node.mem_subnodes_self _) _ rfl
    ((leasePlaced (⟨Real.cos, Real.sin, Real.pi⟩ : JsMath ℝ)).childList.headD
      (leasePlaced ⟨Real.cos, Real.sin, Real.pi⟩))
    (by simp [leasePlaced, layoutRoot, leaseTree, countLeafNodes, countLeafNodes.forEach,
          calculateLayout, calculateLayout.forEach, Node.childList, Node.children])
  have h4 := h.2.2.2
  simp only [calculateLayout_ann] at h4
  simpa [leasePlaced, layoutRoot, calculateLayout_ann] using h4

/-! ### Facts about the bounding box -/

section BoxFacts
variable {α : Type} [LinearOrderedField α]

theorem lowerOk_mathMin (b : Option α) (v w : α) (h : v ≤ w) : lowerOk (mathMin b v) w := by
  cases b with
  | none => simpa [mathMin, lowerOk] using h
  | some m => simpa [mathMin, lowerOk] using Or.inr h

theorem lowerOk_mathMin_of (b : Option α) (v w : α) (h : lowerOk b w) :
    lowerOk (mathMin b v) w := by
  cases b with
  | none => simp [lowerOk] at h
  | some m => simpa [mathMin, lowerOk] using Or.inl h

theorem upperOk_mathMax (b : Option α) (v w : α) (h : w ≤ v) : upperOk (mathMax b v) w := by
  cases b with
  | none => simpa [mathMax, upperOk] using h
  | some m => simpa [mathMax, upperOk] using Or.inr h

theorem upperOk_mathMax_of (b : Option α) (v w : α) (h : upperOk b w) :
    upperOk (mathMax b v) w := by
  cases b with
  | none => simp [upperOk] at h
  | some m => simpa [mathMax, upperOk] using Or.inl h

theorem covers_visit (bb : BoundingBox α) (x y : α) : Covers (bb.visit x y) x y :=
  ⟨lowerOk_mathMin _ _ _ le_rfl, upperOk_mathMax _ _ _ le_rfl,
    lowerOk_mathMin _ _ _ le_rfl, upperOk_mathMax _ _ _ le_rfl⟩

theorem covers_visit_of (bb : BoundingBox α) (x y px py : α) (h : Covers bb px py) :
    Covers (bb.visit x y) px py :=
  ⟨lowerOk_mathMin_of _ _ _ h.1, upperOk_mathMax_of _ _ _ h.2.1,
    lowerOk_mathMin_of _ _ _ h.2.2.1, upperOk_mathMax_of _ _ _ h.2.2.2⟩

mutual
theorem calculateLayout_covers (M : JsMath α) : ∀ (t : Node Nat) (x y : α) (level : Nat)
    (range : α × α) (bb : BoundingBox α),
    (∀ px py, Covers bb px py → Covers (calculateLayout M t x y level range bb).2 px py) ∧
    ∀ n ∈ (calculateLayout M t x y level range bb).1.subnodes,
      Covers (calculateLayout M t x y level range bb).2 n.ann.x n.ann.y
  | .mk title none lc, x, y, level, range, bb => by
      refine ⟨fun px py h => covers_visit_of bb x y px py h, ?_⟩
      intro n hn
      simp only [calculateLayout, Node.subnodes, List.mem_singleton] at hn
      subst hn
      exact covers_visit bb x y
  | .mk title (some []) lc, x, y, level, range, bb => by
      refine ⟨fun px py h => covers_visit_of bb x y px py h, ?_⟩
      intro n hn
      simp only [calculateLayout, Node.subnodes, Node.subnodesList, List.mem_singleton] at hn
      subst hn
      exact covers_visit bb x y
  | .mk title (some (c :: cs)) lc, x, y, level, range, bb => by
      obtain ⟨h1, h2⟩ := calculateLayout_forEach_covers M (c :: cs) lc x y level range
        (300 - ((level : α) * 50)) range.1 (bb.visit x y)
      refine ⟨fun px py h => h1 px py (covers_visit_of bb x y px py h), ?_⟩
      intro n hn
      simp only [calculateLayout, Node.subnodes, List.mem_cons] at hn
      rcases hn with hn | hn
      · subst hn
        exact h1 x y (covers_visit bb x y)
      · exact h2 n hn
theorem calculateLayout_forEach_covers (M : JsMath α) : ∀ (l : List (Node Nat)) (lc : Nat)
    (x y : α) (level : Nat) (range : α × α) (dist cur : α) (bb : BoundingBox α),
    (∀ px py, Covers bb px py →
      Covers (calculateLayout.forEach M l lc x y level range dist cur bb).2.2 px py) ∧
    ∀ n ∈ Node.subnodesList (calculateLayout.forEach M l lc x y level range dist cur bb).1,
      Covers (calculateLayout.forEach M l lc x y level range dist cur bb).2.2 n.ann.x n.ann.y
  | [], lc, x, y, level, range, dist, cur, bb => by
      simp [calculateLayout.forEach, Node.subnodesList]
  | c :: cs, lc, x, y, level, range, dist, cur, bb => by
      obtain ⟨h1, h2⟩ := calculateLayout_covers M c
        (x + dist * M.cos (cur + ((c.ann : α) / (lc : α)) * (range.2 - range.1) / 2))
        (y + dist * M.sin (cur + ((c.ann : α) / (lc : α)) * (range.2 - range.1) / 2))
        (level + 1) (cur, cur + ((c.ann : α) / (lc : α)) * (range.2 - range.1)) bb
      obtain ⟨h3, h4⟩ := calculateLayout_forEach_covers M cs lc x y level range dist
        (cur + ((c.ann : α) / (lc : α)) * (range.2 - range.1))
        (calculateLayout M c
          (x + dist * M.cos (cur + ((c.ann : α) / (lc : α)) * (range.2 - range.1) / 2))
          (y + dist * M.sin (cur + ((c.ann : α) / (lc : α)) * (range.2 - range.1) / 2))
          (level + 1) (cur, cur + ((c.ann : α) / (lc : α)) * (range.2 - range.1)) bb).2
      refine ⟨fun px py h => h3 px py (h1 px py h), ?_⟩
      intro n hn
      simp only [calculateLayout.forEach, Node.subnodesList, List.mem_append] at hn
      rcases hn with hn | hn
      · exact h3 _ _ (h2 n hn)
      · exact h4 n hn
end

theorem viewBoxOf_contains (bb : BoundingBox α) (x y : α) (h : Covers bb x y) :
    (viewBoxOf bb).ContainsRect x y (nodeWidth : α) (nodeHeight : α) := by
  obtain ⟨h1, h2, h3, h4⟩ := h
  rcases bb with ⟨_ | a, _ | b, _ | c, _ | d⟩ <;>
    simp only [lowerOk, upperOk] at h1 h2 h3 h4
  simp only [viewBoxOf, ViewBox.ContainsRect, Option.map_some', nodeWidth, nodeHeight, padding]
    at h1 h2 h3 h4 ⊢
  push_cast at h1 h2 h3 h4 ⊢
  refine ⟨?_, ?_, ?_, ?_⟩ <;> linarith

end BoxFacts

/-! ### Facts about `renderElements`: success on titled trees -/

section RenderOk
variable {α : Type} [Field α]

theorem createNode_ok (title : Option JsString) (x y : α) (r : Bool)
    (h : title.isSome = true) : ∃ g, createNode title x y r = .ok g ∧ g.x = x ∧ g.y = y := by
  cases title with
  | none => simp at h
  | some s => exact ⟨_, rfl, rfl, rfl⟩

theorem groupOf_ok (title : Option JsString) (x y : α) (r : Bool) (path : List Nat)
    (h : title.isSome = true) :
    ∃ g, createNode title x y r = .ok g ∧ groupOf title x y r path = [.group path g]
      ∧ g.x = x ∧ g.y = y := by
  obtain ⟨g, hg, hx, hy⟩ := createNode_ok title x y r h
  exact ⟨g, hg, by simp [groupOf, hg], hx, hy⟩

theorem allTitled_root {A : Type} {t : Node A} (h : AllTitled t) : t.title.isSome = true :=
  h t (Node.mem_subnodes_self t)

theorem allTitled_child {A : Type} {t : Node A} (h : AllTitled t) {cs : List (Node A)}
    (hcs : t.children = some cs) {c : Node A} (hc : c ∈ cs) : AllTitled c :=
  fun n hn => h n (Node.mem_subnodes_child hcs hc hn)

mutual
theorem renderElements_eq_drawn : ∀ (t : Node (Placed α)) (r : Bool) (path : List Nat)
    (svg : List (Element α)), AllTitled t →
    renderElements t r path svg = .ok (svg ++ drawn t r path)
  | .mk title none p, r, path, svg => by
      intro h
      obtain ⟨g, hg, hgo, -⟩ := groupOf_ok title p.x p.y r path (allTitled_root h)
      simp [renderElements, drawn, hg, hgo]
  | .mk title (some cs) p, r, path, svg => by
      intro h
      obtain ⟨g, hg, hgo, -⟩ := groupOf_ok title p.x p.y r path (allTitled_root h)
      have hl := renderElements_forEach_eq_drawnList cs p.x p.y path 0 svg
        (fun c hc => allTitled_child h rfl hc)
      simp [renderElements, drawn, hg, hgo, hl]
theorem renderElements_forEach_eq_drawnList : ∀ (l : List (Node (Placed α))) (nx ny : α)
    (path : List Nat) (i : Nat) (svg : List (Element α)), (∀ c ∈ l, AllTitled c) →
    renderElements.forEach l nx ny path i svg = .ok (svg ++ drawnList l nx ny path i)
  | [], nx, ny, path, i, svg => by
      intro _
      simp [renderElements.forEach, drawnList]
  | c :: cs, nx, ny, path, i, svg => by
      intro h
      have h1 := renderElements_eq_drawn c false (path ++ [i])
        (svg ++ [.line (path ++ [i]) nx ny c.ann.x c.ann.y]) (h c (List.mem_cons_self _ _))
      have h2 := renderElements_forEach_eq_drawnList cs nx ny path (i + 1)
        (svg ++ [.line (path ++ [i]) nx ny c.ann.x c.ann.y] ++ drawn c false (path ++ [i]))
        (fun d hd => h d (List.mem_cons_of_mem _ hd))
      simp only [renderElements.forEach, createLine, drawnList, h1, h2]
      simp
end

end RenderOk

/-! ### The passes keep titles and children -/

mutual
theorem Node.subnodes_mapAnn {A B : Type} (f : A → B) : ∀ t : Node A,
    (t.mapAnn f).subnodes = t.subnodes.map (Node.mapAnn f)
  | .mk t none a => by simp [Node.mapAnn, Node.subnodes]
  | .mk t (some cs) a => by
      simp [Node.mapAnn, Node.subnodes, Node.subnodesList_mapAnn f cs]
theorem Node.subnodesList_mapAnn {A B : Type} (f : A → B) : ∀ l : List (Node A),
    Node.subnodesList (Node.mapAnnList f l) = (Node.subnodesList l).map (Node.mapAnn f)
  | [] => by simp [Node.mapAnnList, Node.subnodesList]
  | c :: cs => by
      simp [Node.mapAnnList, Node.subnodesList, Node.subnodes_mapAnn f c,
        Node.subnodesList_mapAnn f cs]
end

theorem Node.title_mapAnn {A B : Type} (f : A → B) (t : Node A) :
    (t.mapAnn f).title = t.title := by
  rcases t with ⟨t, _ | cs, a⟩ <;> simp [Node.mapAnn, Node.title]

mutual
theorem Node.size_mapAnn {A B : Type} (f : A → B) : ∀ t : Node A, (t.mapAnn f).size = t.size
  | .mk t none a => by simp [Node.mapAnn, Node.size]
  | .mk t (some cs) a => by simp [Node.mapAnn, Node.size, Node.sizeList_mapAnn f cs]
theorem Node.sizeList_mapAnn {A B : Type} (f : A → B) : ∀ l : List (Node A),
    Node.sizeList (Node.mapAnnList f l) = Node.sizeList l
  | [] => by simp [Node.mapAnnList, Node.sizeList]
  | c :: cs => by
      simp [Node.mapAnnList, Node.sizeList, Node.size_mapAnn f c, Node.sizeList_mapAnn f cs]
end

theorem allTitled_mapAnn {A B : Type} (f : A → B) (t : Node A) :
    AllTitled (t.mapAnn f) ↔ AllTitled t := by
  simp [AllTitled, Node.subnodes_mapAnn, Node.title_mapAnn]

section ShapeFacts
variable {α : Type} [LinearOrderedField α]

mutual
theorem calculateLayout_shape (M : JsMath α) : ∀ (t : Node Nat) (x y : α) (level : Nat)
    (range : α × α) (bb : BoundingBox α),
    (calculateLayout M t x y level range bb).1.mapAnn (fun _ => ()) = t.mapAnn (fun _ => ())
  | .mk title none lc, x, y, level, range, bb => by simp [calculateLayout, Node.mapAnn]
  | .mk title (some []) lc, x, y, level, range, bb => by
      simp [calculateLayout, Node.mapAnn, Node.mapAnnList]
  | .mk title (some (c :: cs)) lc, x, y, level, range, bb => by
      have h := calculateLayout_forEach_shape M (c :: cs) lc x y level range
        (300 - ((level : α) * 50)) range.1 (bb.visit x y)
      simp only [calculateLayout, Node.mapAnn, h]
theorem calculateLayout_forEach_shape (M : JsMath α) : ∀ (l : List (Node Nat)) (lc : Nat)
    (x y : α) (level : Nat) (range : α × α) (dist cur : α) (bb : BoundingBox α),
    Node.mapAnnList (fun _ => ()) (calculateLayout.forEach M l lc x y level range dist cur bb).1
      = Node.mapAnnList (fun _ => ()) l
  | [], lc, x, y, level, range, dist, cur, bb => by
      simp [calculateLayout.forEach, Node.mapAnnList]
  | c :: cs, lc, x, y, level, range, dist, cur, bb => by
      simp only [calculateLayout.forEach, Node.mapAnnList]
      rw [calculateLayout_shape M c, calculateLayout_forEach_shape M cs]
end

theorem layoutRoot_shape (M : JsMath α) (d : Node Unit) :
    (layoutRoot M (countLeafNodes d).1).1.mapAnn (fun _ => ()) = d := by
  rw [layoutRoot, calculateLayout_shape, countLeafNodes_shape]

theorem layoutRoot_allTitled (M : JsMath α) (d : Node Unit) (h : AllTitled d) :
    AllTitled (layoutRoot M (countLeafNodes d).1).1 := by
  rw [← allTitled_mapAnn (fun _ => ()), layoutRoot_shape]
  exact h

theorem layoutRoot_size (M : JsMath α) (d : Node Unit) :
    (layoutRoot M (countLeafNodes d).1).1.size = d.size := by
  rw [← Node.size_mapAnn (fun _ => ()), layoutRoot_shape]

theorem drawMindMap_valid (M : JsMath α) (c : Container α) (d : Node Unit) (h : ValidTree d) :
    drawMindMap M (some c) (some d) =
      { container := some
          { innerHTML := "",
            appended := [{ viewBox := viewBoxOf (layoutRoot M (countLeafNodes d).1).2,
                           children := drawn (layoutRoot M (countLeafNodes d).1).1 true [] }] },
        annotated := some (layoutRoot M (countLeafNodes d).1).1,
        thrown := none } := by
  have hr := renderElements_eq_drawn (layoutRoot M (countLeafNodes d).1).1 true [] []
    (layoutRoot_allTitled M d h.2)
  simp [drawMindMap, h.1, hr]

end ShapeFacts

/-- C4. For a valid tree (non-empty root title, every node titled) and a
present container, `drawMindMap` returns normally with exactly one svg
appended; the tree it annotated is the input tree, and the svg's view box
(origin `(minX - 80, minY - 80)`, size
`(maxX - minX + 160, maxY - minY + 160)`) contains, for every node of the
annotated tree, the 160 by 80 rectangle centred at the node's position. -/
theorem drawMindMap_viewBox_contains {α : Type} [LinearOrderedField α] (M : JsMath α)
    (c : Container α) (d : Node Unit) (h : ValidTree d) :
    ∃ svg placed,
      drawMindMap M (some c) (some d)
        = { container := some { innerHTML := "", appended := [svg] },
            annotated := some placed, thrown := none } ∧
      placed.mapAnn (fun _ => ()) = d ∧
      svg.viewBox = viewBoxOf (layoutRoot M (countLeafNodes d).1).2 ∧
      ∀ n ∈ placed.subnodes,
        svg.viewBox.ContainsRect n.ann.x n.ann.y (nodeWidth : α) (nodeHeight : α) := by
  refine ⟨_, _, drawMindMap_valid M c d h, layoutRoot_shape M d, rfl, ?_⟩
  intro n hn
  exact viewBoxOf_contains _ _ _
    ((calculateLayout_covers M (countLeafNodes d).1 0 0 0 (0, 2 * M.PI) BoundingBox.init).2 n hn)

/-- Witness for C4: the lease tree is valid, and drawing it into an empty
container over the reals gives a view box containing every node's footprint. -/
theorem drawMindMap_viewBox_contains_witness :
    ValidTree leaseTree ∧
    ∃ svg placed,
      drawMindMap (⟨Real.cos, Real.sin, Real.pi⟩ : JsMath ℝ)
          (some { innerHTML := "", appended := [] }) (some leaseTree)
        = { container := some { innerHTML := "", appended := [svg] },
            annotated := some placed, thrown := none } ∧
      placed.mapAnn (fun _ => ()) = leaseTree ∧
      svg.viewBox = viewBoxOf (layoutRoot (⟨Real.cos, Real.sin, Real.pi⟩ : JsMath ℝ)
        (countLeafNodes leaseTree).1).2 ∧
      ∀ n ∈ placed.subnodes,
        svg.viewBox.ContainsRect n.ann.x n.ann.y ((nodeWidth : ℕ) : ℝ) ((nodeHeight : ℕ) : ℝ) :=
  ⟨by decide, drawMindMap_viewBox_contains _ _ leaseTree (by decide)⟩

/-- C5. With a present container, when `data` is absent or its title is absent
or the empty string, `drawMindMap` returns normally, the container holds the
placeholder markup `<p>Invalid mind map data received.</p>` and nothing else
(no svg, hence no shape and no line), and no annotation was written on `data`. -/
theorem drawMindMap_invalid {α : Type} [LinearOrderedField α] (M : JsMath α)
    (c : Container α) (data : Option (Node Unit))
    (h : data = none ∨ ∃ d, data = some d ∧ (d.title = none ∨ d.title = some [])) :
    drawMindMap M (some c) data
      = { container := some { innerHTML := "<p>Invalid mind map data received.</p>",
                              appended := [] },
          annotated := none, thrown := none } := by
  rcases h with rfl | ⟨d, rfl, hd | hd⟩
  · rfl
  · simp [drawMindMap, hd, titleFalsy, invalidMarkup]
  · simp [drawMindMap, hd, titleFalsy, invalidMarkup]

/-- Witness for C5: the object `{}` (no title, no children) drawn into a
container that already shows something. -/
theorem drawMindMap_invalid_witness :
    drawMindMap (⟨Real.cos, Real.sin, Real.pi⟩ : JsMath ℝ)
        (some { innerHTML := "<p>old</p>", appended := [] }) (some (Node.mk none none ()))
      = { container := some { innerHTML := "<p>Invalid mind map data received.</p>",
                              appended := [] },
          annotated := none, thrown := none } :=
  drawMindMap_invalid _ _ _ (Or.inr ⟨_, rfl, Or.inl rfl⟩)

/-! ### Facts about the drawn elements: where each node's elements sit -/

section DrawnFacts
variable {α : Type} [Field α]

theorem Node.subtreeAtList_eq {A : Type} : ∀ (l : List (Node A)) (j : Nat) (q : List Nat)
    (n : Node A), Node.subtreeAtList l j q = some n →
    ∃ c, l[j]? = some c ∧ c.subtreeAt q = some n
  | [], j, q, n => by simp [Node.subtreeAtList]
  | c :: cs, 0, q, n => by
      intro h
      exact ⟨c, by simp, by simpa [Node.subtreeAtList] using h⟩
  | c :: cs, j + 1, q, n => by
      intro h
      simp only [Node.subtreeAtList] at h
      obtain ⟨d, hd, hq⟩ := Node.subtreeAtList_eq cs j q n h
      exact ⟨d, by simpa using hd, hq⟩

theorem groupOf_node (title : Option JsString) (x y : α) (r : Bool) (path : List Nat) :
    ∀ e ∈ groupOf title x y r path, e.node = path ∧ e.isLine = false := by
  intro e he
  unfold groupOf at he
  split at he
  · simp at he
  · simp only [List.mem_singleton] at he
    subst he
    simp [Element.node, Element.isLine]

mutual
theorem drawn_node : ∀ (t : Node (Placed α)) (r : Bool) (path : List Nat),
    ∀ e ∈ drawn t r path, ∃ q, e.node = path ++ q ∧ (e.isLine = true → q ≠ [])
  | .mk title none p, r, path => by
      intro e he
      obtain ⟨h1, h2⟩ := groupOf_node title p.x p.y r path e (by simpa [drawn] using he)
      exact ⟨[], by simp [h1], by simp [h2]⟩
  | .mk title (some cs) p, r, path => by
      intro e he
      simp only [drawn, List.mem_append] at he
      rcases he with he | he
      · obtain ⟨k, q, -, hq⟩ := drawnList_node cs p.x p.y path 0 e he
        exact ⟨k :: q, hq, by simp⟩
      · obtain ⟨h1, h2⟩ := groupOf_node title p.x p.y r path e he
        exact ⟨[], by simp [h1], by simp [h2]⟩
theorem drawnList_node : ∀ (l : List (Node (Placed α))) (nx ny : α) (path : List Nat)
    (i : Nat), ∀ e ∈ drawnList l nx ny path i, ∃ k q, i ≤ k ∧ e.node = path ++ k :: q
  | [], nx, ny, path, i => by simp [drawnList]
  | c :: cs, nx, ny, path, i => by
      intro e he
      simp only [drawnList, List.cons_append, List.mem_cons, List.mem_append] at he
      rcases he with he | he | he
      · subst he
        exact ⟨i, [], le_rfl, by simp [Element.node]⟩
      · obtain ⟨q, hq, -⟩ := drawn_node c false (path ++ [i]) e he
        exact ⟨i, q, le_rfl, by simp [hq]⟩
      · obtain ⟨k, q, hk, hq⟩ := drawnList_node cs nx ny path (i + 1) e he
        exact ⟨k, q, by omega, hq⟩
end

/-- The elements the loop appends for the child at index `j`: its line, then
the child's own elements; nothing else in the loop's output lies under that
child's path. -/
theorem drawnList_segment : ∀ (l : List (Node (Placed α))) (nx ny : α) (path : List Nat)
    (i j : Nat) (c : Node (Placed α)), l[j]? = some c →
    ∃ X Y, drawnList l nx ny path i
        = X ++ (.line (path ++ [i + j]) nx ny c.ann.x c.ann.y
                  :: drawn c false (path ++ [i + j])) ++ Y ∧
      ∀ e ∈ X ++ Y, ∀ q, e.node ≠ path ++ (i + j) :: q
  | [], nx, ny, path, i, j, c => by simp
  | d :: ds, nx, ny, path, i, 0, c => by
      intro h
      simp only [List.getElem?_cons_zero, Option.some.injEq] at h
      subst h
      refine ⟨[], drawnList ds nx ny path (i + 1), by simp [drawnList], ?_⟩
      intro e he q hq
      simp only [List.nil_append] at he
      obtain ⟨k, q2, hk, hq2⟩ := drawnList_node ds nx ny path (i + 1) e he
      rw [hq2] at hq
      have := List.append_cancel_left hq
      simp only [List.cons.injEq, add_zero] at this
      omega
  | d :: ds, nx, ny, path, i, j + 1, c => by
      intro h
      simp only [List.getElem?_cons_succ] at h
      obtain ⟨X, Y, hXY, hside⟩ := drawnList_segment ds nx ny path (i + 1) j c h
      have hidx : i + 1 + j = i + (j + 1) := by omega
      rw [hidx] at hXY hside
      refine ⟨(.line (path ++ [i]) nx ny d.ann.x d.ann.y :: drawn d false (path ++ [i])) ++ X,
        Y, by simp [drawnList, hXY], ?_⟩
      intro e he q hq
      simp only [List.cons_append, List.append_assoc, List.mem_cons, List.mem_append] at he
      rcases he with he | he | he | he
      · subst he
        simp only [Element.node] at hq
        have := List.append_cancel_left hq
        simp only [List.cons.injEq] at this
        omega
      · obtain ⟨q2, hq2, -⟩ := drawn_node d false (path ++ [i]) e he
        rw [hq2, List.append_assoc] at hq
        have := List.append_cancel_left hq
        simp only [List.singleton_append, List.cons.injEq] at this
        omega
      · exact hside e (List.mem_append_left _ he) q hq
      · exact hside e (List.mem_append_right _ he) q hq

end DrawnFacts

section DrawnFacts2
variable {α : Type} [Field α]

/-- The node group closes the elements of a titled node; everything before it
lies strictly below the node's path. -/
theorem drawn_last (t : Node (Placed α)) (r : Bool) (path : List Nat)
    (h : t.title.isSome = true) :
    ∃ Z g, drawn t r path = Z ++ [.group path g] ∧
      createNode t.title t.ann.x t.ann.y r = .ok g ∧
      Z = drawnList t.childList t.ann.x t.ann.y path 0 := by
  rcases t with ⟨title, _ | cs, p⟩
  · obtain ⟨g, hg, hgo, -⟩ := groupOf_ok title p.x p.y r path h
    exact ⟨[], g, by simp [drawn, hgo], hg, by simp [Node.childList, Node.children, drawnList]⟩
  · obtain ⟨g, hg, hgo, -⟩ := groupOf_ok title p.x p.y r path h
    exact ⟨drawnList cs p.x p.y path 0, g, by simp [drawn, hgo], hg,
      by simp [Node.childList, Node.children, Node.ann]⟩

/-- The elements of the subtree at `q` form one block of the drawn list;
outside the block only the line leading to that subtree carries a path at or
below `q`. For `q` non-empty the block lies among the children's elements,
before the node's own group. -/
theorem drawn_segment : ∀ (q : List Nat) (t : Node (Placed α)) (r : Bool) (path : List Nat)
    (n : Node (Placed α)), t.subtreeAt q = some n →
    ∃ X Y, drawn t r path = X ++ drawn n (r && q.isEmpty) (path ++ q) ++ Y ∧
      (∀ e ∈ X ++ Y, ∀ s, e.node = path ++ q ++ s → e.isLine = true ∧ s = []) ∧
      (q ≠ [] → ∃ Y2, Y = Y2 ++ groupOf t.title t.ann.x t.ann.y r path ∧
        drawnList t.childList t.ann.x t.ann.y path 0
          = X ++ drawn n (r && q.isEmpty) (path ++ q) ++ Y2)
  | [], t, r, path, n => by
      intro h
      rcases t with ⟨title, _ | cs, p⟩ <;>
        simp only [Node.subtreeAt, Option.some.injEq] at h <;> subst h <;>
        exact ⟨[], [], by simp, by simp, by simp⟩
  | i :: q, .mk title none p, r, path, n => by
      intro h
      simp [Node.subtreeAt] at h
  | i :: q, .mk title (some cs) p, r, path, n => by
      intro h
      simp only [Node.subtreeAt] at h
      obtain ⟨c, hc, hcq⟩ := Node.subtreeAtList_eq cs i q n h
      obtain ⟨X1, Y1, h1, hside1⟩ := drawnList_segment cs p.x p.y path 0 i c hc
      simp only [zero_add] at h1 hside1
      obtain ⟨X2, Y2, h2, hside2, -⟩ := drawn_segment q c false (path ++ [i]) n hcq
      have hp : path ++ [i] ++ q = path ++ i :: q := by simp
      rw [hp] at h2 hside2
      simp only [Bool.false_and] at h2
      refine ⟨X1 ++ .line (path ++ [i]) p.x p.y c.ann.x c.ann.y :: X2,
        Y2 ++ Y1 ++ groupOf title p.x p.y r path, ?_, ?_, ?_⟩
      · simp only [drawn, h1, h2, List.isEmpty_cons, Bool.and_false]
        simp
      · intro e he s hs
        simp only [List.mem_append, List.mem_cons, or_assoc] at he
        rcases he with he | he | he | he | he | he
        · exact absurd hs (by
            simpa [List.append_assoc] using hside1 e (List.mem_append_left _ he) (q ++ s))
        · subst he
          simp only [Element.node, List.append_assoc, List.cons_append] at hs
          have := List.append_cancel_left hs
          simp only [List.singleton_append, List.cons.injEq, true_and] at this
          have hq : q ++ s = [] := this.symm
          simp only [List.append_eq_nil] at hq
          exact ⟨rfl, hq.2⟩
        · exact hside2 e (List.mem_append_left _ he) s hs
        · exact hside2 e (List.mem_append_right _ he) s hs
        · exact absurd hs (by
            simpa [List.append_assoc] using hside1 e (List.mem_append_right _ he) (q ++ s))
        · obtain ⟨hn, -⟩ := groupOf_node title p.x p.y r path e he
          rw [hn, List.append_assoc] at hs
          have hlen := congrArg List.length hs
          simp only [List.length_append, List.length_cons] at hlen
          omega
      · intro _
        refine ⟨Y2 ++ Y1, by simp [Node.title, Node.ann], ?_⟩
        simp only [Node.childList, Node.children, Node.ann, h1, h2, List.isEmpty_cons,
          Bool.and_false]
        simp

mutual
theorem drawn_count : ∀ (t : Node (Placed α)) (r : Bool) (path : List Nat), AllTitled t →
    (drawn t r path).countP Element.isGroup = t.size ∧
    (drawn t r path).countP Element.isLine + 1 = t.size
  | .mk title none p, r, path => by
      intro h
      obtain ⟨g, -, hgo, -⟩ := groupOf_ok title p.x p.y r path (allTitled_root h)
      simp [drawn, hgo, Node.size, Element.isGroup, Element.isLine]
  | .mk title (some cs) p, r, path => by
      intro h
      obtain ⟨g, -, hgo, -⟩ := groupOf_ok title p.x p.y r path (allTitled_root h)
      obtain ⟨h1, h2⟩ := drawnList_count cs p.x p.y path 0 (fun c hc => allTitled_child h rfl hc)
      simp only [drawn, hgo, Node.size, List.countP_append, h1, h2]
      simp [Element.isGroup, Element.isLine]
      omega
theorem drawnList_count : ∀ (l : List (Node (Placed α))) (nx ny : α) (path : List Nat)
    (i : Nat), (∀ c ∈ l, AllTitled c) →
    (drawnList l nx ny path i).countP Element.isGroup = Node.sizeList l ∧
    (drawnList l nx ny path i).countP Element.isLine = Node.sizeList l
  | [], nx, ny, path, i => by
      intro _
      simp [drawnList, Node.sizeList]
  | c :: cs, nx, ny, path, i => by
      intro h
      obtain ⟨h1, h2⟩ := drawn_count c false (path ++ [i]) (h c (List.mem_cons_self _ _))
      obtain ⟨h3, h4⟩ := drawnList_count cs nx ny path (i + 1)
        (fun d hd => h d (List.mem_cons_of_mem _ hd))
      simp only [drawnList, Node.sizeList, List.cons_append, List.countP_cons,
        List.countP_append, h1, h3, h4, Element.isGroup, Element.isLine]
      simp
      omega
end

end DrawnFacts2

/-! ### Facts about the drawn elements: anatomy around a node and an edge -/

theorem isGroupOf_eq_false_of_node_ne {α : Type} (e : Element α) (p : List Nat)
    (h : e.node ≠ p) : e.isGroupOf p = false := by
  simp [Element.isGroupOf, h]

theorem isLineTo_eq_false_of_node_ne {α : Type} (e : Element α) (p : List Nat)
    (h : e.node ≠ p) : e.isLineTo p = false := by
  simp [Element.isLineTo, h]

theorem isGroupOf_eq_false_of_isLine {α : Type} (e : Element α) (p : List Nat)
    (h : e.isLine = true) : e.isGroupOf p = false := by
  cases e <;> simp_all [Element.isGroupOf, Element.isGroup, Element.isLine]

theorem append_cons_ne_self (p : List Nat) (k : Nat) (s : List Nat) : p ++ k :: s ≠ p := by
  intro h
  have := congrArg List.length h
  simp at this

section Anatomy
variable {α : Type} [Field α]

/-- Around a node: the drawn list is `A ++ group :: D`, the group is the one
`createNode` builds for the node, no other element is a group of the node, and
nothing follows the root's group. -/
theorem drawn_node_anatomy (t : Node (Placed α)) (ht : AllTitled t) (p : List Nat)
    (n : Node (Placed α)) (hn : t.subtreeAt p = some n) (hnt : n.title.isSome = true) :
    ∃ A D g, drawn t true [] = A ++ .group p g :: D ∧
      createNode n.title n.ann.x n.ann.y p.isEmpty = .ok g ∧
      (∀ e ∈ A ++ D, e.isGroupOf p = false) ∧ (p = [] → D = []) := by
  obtain ⟨X, Y, hXY, hside, hY⟩ := drawn_segment p t true [] n hn
  simp only [List.nil_append, Bool.true_and] at hXY hside
  obtain ⟨Z, g, hZ, hg, hZdef⟩ := drawn_last n p.isEmpty p hnt
  refine ⟨X ++ Z, Y, g, by simp [hXY, hZ], hg, ?_, ?_⟩
  · intro e he
    simp only [List.append_assoc, List.mem_append] at he
    rcases he with he | he | he
    · by_cases hnode : e.node = p
      · exact isGroupOf_eq_false_of_isLine e p
          (hside e (List.mem_append_left _ he) [] (by simpa using hnode)).1
      · exact isGroupOf_eq_false_of_node_ne e p hnode
    · rw [hZdef] at he
      obtain ⟨k, s, -, hks⟩ := drawnList_node _ _ _ _ _ e he
      exact isGroupOf_eq_false_of_node_ne e p (by rw [hks]; exact append_cons_ne_self p k s)
    · by_cases hnode : e.node = p
      · exact isGroupOf_eq_false_of_isLine e p
          (hside e (List.mem_append_right _ he) [] (by simpa using hnode)).1
      · exact isGroupOf_eq_false_of_node_ne e p hnode
  · intro hp
    subst hp
    have hlen := congrArg List.length hXY
    have h2 : t = n := by
      rcases t with ⟨tt, _ | cs, a⟩ <;> simpa [Node.subtreeAt] using hn
    subst h2
    simp only [List.isEmpty_nil, List.length_append] at hlen
    have : Y.length = 0 := by omega
    exact List.length_eq_zero.mp this

omit [Field α] in
theorem side_not_group (L : List (Element α)) (p : List Nat)
    (hside : ∀ e ∈ L, ∀ s, e.node = p ++ s → e.isLine = true ∧ s = []) :
    ∀ e ∈ L, e.isGroupOf p = false ∧ ∀ k s, e.node ≠ p ++ k :: s := by
  intro e he
  refine ⟨?_, ?_⟩
  · by_cases hnode : e.node = p
    · exact isGroupOf_eq_false_of_isLine e p (hside e he [] (by simpa using hnode)).1
    · exact isGroupOf_eq_false_of_node_ne e p hnode
  · intro k s hks
    have := (hside e he (k :: s) hks).2
    simp at this

/-- Around an edge: the line, later the child's group, later the parent's
group; no other element is the line of that edge or a group of either node. -/
theorem drawn_edge_anatomy (t : Node (Placed α)) (p : List Nat)
    (n : Node (Placed α)) (hn : t.subtreeAt p = some n) (i : Nat) (c : Node (Placed α))
    (hc : n.childList[i]? = some c) (hnt : n.title.isSome = true)
    (hct : c.title.isSome = true) :
    ∃ A B C D gc gp,
      drawn t true [] = A ++ .line (p ++ [i]) n.ann.x n.ann.y c.ann.x c.ann.y
        :: B ++ .group (p ++ [i]) gc :: C ++ .group p gp :: D ∧
      createNode c.title c.ann.x c.ann.y false = .ok gc ∧
      createNode n.title n.ann.x n.ann.y p.isEmpty = .ok gp ∧
      ∀ e ∈ A ++ B ++ C ++ D, e.isLineTo (p ++ [i]) = false ∧
        e.isGroupOf (p ++ [i]) = false ∧ e.isGroupOf p = false := by
  obtain ⟨X, Y, hXY, hside, -⟩ := drawn_segment p t true [] n hn
  simp only [List.nil_append, Bool.true_and] at hXY hside
  obtain ⟨Z, gp, hZ, hgp, hZdef⟩ := drawn_last n p.isEmpty p hnt
  obtain ⟨X1, Y1, h1, hside1⟩ := drawnList_segment n.childList n.ann.x n.ann.y p 0 i c hc
  simp only [zero_add] at h1 hside1
  obtain ⟨Zc, gc, hZc, hgc, hZcdef⟩ := drawn_last c false (p ++ [i]) hct
  have hout : ∀ e ∈ X ++ Y, e.isLineTo (p ++ [i]) = false ∧
      e.isGroupOf (p ++ [i]) = false ∧ e.isGroupOf p = false := by
    intro e he
    obtain ⟨h1, h2⟩ := side_not_group _ p hside e he
    have hne : e.node ≠ p ++ [i] := h2 i []
    exact ⟨isLineTo_eq_false_of_node_ne e _ hne, isGroupOf_eq_false_of_node_ne e _ hne, h1⟩
  have hsib : ∀ e ∈ X1 ++ Y1, e.isLineTo (p ++ [i]) = false ∧
      e.isGroupOf (p ++ [i]) = false ∧ e.isGroupOf p = false := by
    intro e he
    have hne : e.node ≠ p ++ [i] := hside1 e he []
    have hmem : e ∈ drawnList n.childList n.ann.x n.ann.y p 0 := by
      rw [h1]
      simp only [List.mem_append] at he ⊢
      rcases he with he | he
      · exact Or.inl (Or.inl he)
      · exact Or.inr he
    obtain ⟨k, s, -, hks⟩ := drawnList_node _ _ _ _ _ e hmem
    exact ⟨isLineTo_eq_false_of_node_ne e _ hne, isGroupOf_eq_false_of_node_ne e _ hne,
      isGroupOf_eq_false_of_node_ne e p (by rw [hks]; exact append_cons_ne_self p k s)⟩
  have hsub : ∀ e ∈ Zc, e.isLineTo (p ++ [i]) = false ∧
      e.isGroupOf (p ++ [i]) = false ∧ e.isGroupOf p = false := by
    intro e he
    rw [hZcdef] at he
    obtain ⟨k, s, -, hks⟩ := drawnList_node _ _ _ _ _ e he
    have hne : e.node ≠ p ++ [i] := by rw [hks]; exact append_cons_ne_self _ k s
    have hne2 : e.node ≠ p := by
      rw [hks, List.append_assoc]; exact append_cons_ne_self p i _
    exact ⟨isLineTo_eq_false_of_node_ne e _ hne, isGroupOf_eq_false_of_node_ne e _ hne,
      isGroupOf_eq_false_of_node_ne e p hne2⟩
  refine ⟨X ++ X1, Zc, Y1, Y, gc, gp, ?_, hgc, hgp, ?_⟩
  · rw [hXY, hZ, hZdef, h1, hZc]
    simp
  · intro e he
    simp only [List.append_assoc, List.mem_append] at he
    rcases he with he | he | he | he | he
    · exact hout e (List.mem_append_left _ he)
    · exact hsib e (List.mem_append_left _ he)
    · exact hsub e he
    · exact hsib e (List.mem_append_right _ he)
    · exact hout e (List.mem_append_right _ he)

/-- Around a node and a proper descendant: the descendant's group, later the
node's group; no other element is a group of either. -/
theorem drawn_desc_anatomy (t : Node (Placed α)) (p : List Nat)
    (n : Node (Placed α)) (hn : t.subtreeAt p = some n) (q : List Nat) (hq : q ≠ [])
    (d : Node (Placed α)) (hd : n.subtreeAt q = some d) (hnt : n.title.isSome = true)
    (hdt : d.title.isSome = true) :
    ∃ A B D gd gp,
      drawn t true [] = A ++ .group (p ++ q) gd :: B ++ .group p gp :: D ∧
      createNode d.title d.ann.x d.ann.y false = .ok gd ∧
      createNode n.title n.ann.x n.ann.y p.isEmpty = .ok gp ∧
      ∀ e ∈ A ++ B ++ D, e.isGroupOf (p ++ q) = false ∧ e.isGroupOf p = false := by
  obtain ⟨X, Y, hXY, hside, -⟩ := drawn_segment p t true [] n hn
  simp only [List.nil_append, Bool.true_and] at hXY hside
  obtain ⟨Z, gp, hZ, hgp, hZdef⟩ := drawn_last n p.isEmpty p hnt
  obtain ⟨X2, Y2, -, hside2, h3⟩ := drawn_segment q n p.isEmpty p d hd
  obtain ⟨Y3, hY3, hZ2⟩ := h3 hq
  have hqe : q.isEmpty = false := by
    cases q with
    | nil => exact absurd rfl hq
    | cons a b => rfl
  simp only [hqe, Bool.and_false] at hZ2
  obtain ⟨Zd, gd, hZd, hgd, hZddef⟩ := drawn_last d false (p ++ q) hdt
  obtain ⟨k0, q0, hq0⟩ : ∃ k0 q0, q = k0 :: q0 := by
    cases q with
    | nil => exact absurd rfl hq
    | cons a b => exact ⟨a, b, rfl⟩
  have hout : ∀ e ∈ X ++ Y, e.isGroupOf (p ++ q) = false ∧ e.isGroupOf p = false := by
    intro e he
    obtain ⟨h1, h2⟩ := side_not_group _ p hside e he
    exact ⟨isGroupOf_eq_false_of_node_ne e _ (by rw [hq0]; exact h2 k0 q0), h1⟩
  have hsib : ∀ e ∈ X2 ++ Y3, e.isGroupOf (p ++ q) = false ∧ e.isGroupOf p = false := by
    intro e he
    have he2 : e ∈ X2 ++ Y2 := by
      rw [hY3]
      simp only [List.mem_append] at he ⊢
      rcases he with he | he
      · exact Or.inl he
      · exact Or.inr (Or.inl he)
    have hmem : e ∈ drawnList n.childList n.ann.x n.ann.y p 0 := by
      rw [hZ2]
      simp only [List.mem_append] at he ⊢
      rcases he with he | he
      · exact Or.inl (Or.inl he)
      · exact Or.inr he
    obtain ⟨k, s, -, hks⟩ := drawnList_node _ _ _ _ _ e hmem
    exact ⟨(side_not_group _ (p ++ q) hside2 e he2).1,
      isGroupOf_eq_false_of_node_ne e p (by rw [hks]; exact append_cons_ne_self p k s)⟩
  have hsub : ∀ e ∈ Zd, e.isGroupOf (p ++ q) = false ∧ e.isGroupOf p = false := by
    intro e he
    rw [hZddef] at he
    obtain ⟨k, s, -, hks⟩ := drawnList_node _ _ _ _ _ e he
    have hne : e.node ≠ p ++ q := by rw [hks]; exact append_cons_ne_self _ k s
    have hne2 : e.node ≠ p := by
      rw [hks, hq0, List.append_assoc]; exact append_cons_ne_self p k0 _
    exact ⟨isGroupOf_eq_false_of_node_ne e _ hne, isGroupOf_eq_false_of_node_ne e p hne2⟩
  refine ⟨X ++ X2 ++ Zd, Y3, Y, gd, gp, ?_, hgd, hgp, ?_⟩
  · rw [hXY, hZ, hZdef, hZ2, hZd]
    simp
  · intro e he
    simp only [List.append_assoc, List.mem_append] at he
    rcases he with he | he | he | he | he
    · exact hout e (List.mem_append_left _ he)
    · exact hsib e (List.mem_append_left _ he)
    · exact hsub e he
    · exact hsib e (List.mem_append_right _ he)
    · exact hout e (List.mem_append_right _ he)

theorem Node.subtreeAt_mem {A : Type} : ∀ (p : List Nat) (t n : Node A),
    t.subtreeAt p = some n → n ∈ t.subnodes
  | [], t, n => by
      intro h
      have h2 : t = n := by
        rcases t with ⟨tt, _ | cs, a⟩ <;> simpa [Node.subtreeAt] using h
      subst h2
      exact Node.mem_subnodes_self _
  | i :: p, .mk tt none a, n => by
      intro h
      simp [Node.subtreeAt] at h
  | i :: p, .mk tt (some cs) a, n => by
      intro h
      simp only [Node.subtreeAt] at h
      obtain ⟨c, hc, hq⟩ := Node.subtreeAtList_eq cs i p n h
      exact Node.mem_subnodes_child (n := .mk tt (some cs) a) rfl (List.getElem?_mem hc)
        (Node.subtreeAt_mem p c n hq)

theorem Node.child_mem_subnodes {A : Type} (n : Node A) (i : Nat) (c : Node A)
    (hc : n.childList[i]? = some c) : c ∈ n.subnodes := by
  rcases n with ⟨tt, _ | cs, a⟩
  · simp [Node.childList, Node.children] at hc
  · simp only [Node.childList, Node.children] at hc
    exact Node.mem_subnodes_child (n := .mk tt (some cs) a) rfl (List.getElem?_mem hc)
      (Node.mem_subnodes_self c)

end Anatomy

theorem filter_one {β : Type} (f : β → Bool) (A D : List β) (a : β)
    (h : ∀ e ∈ A ++ D, f e = false) (ha : f a = true) :
    (A ++ a :: D).filter f = [a] := by
  have hA : A.filter f = [] := List.filter_eq_nil_iff.mpr (fun e he => by
    simp [h e (List.mem_append_left _ he)])
  have hD : D.filter f = [] := List.filter_eq_nil_iff.mpr (fun e he => by
    simp [h e (List.mem_append_right _ he)])
  simp [List.filter_append, List.filter_cons, hA, hD, ha]

theorem filter_two {β : Type} (f : β → Bool) (A B D : List β) (a b : β)
    (h : ∀ e ∈ A ++ B ++ D, f e = false) (ha : f a = true) (hb : f b = true) :
    (A ++ a :: B ++ b :: D).filter f = [a, b] := by
  have hA : A.filter f = [] := List.filter_eq_nil_iff.mpr (fun e he => by
    simp [h e (by simp [he])])
  have hB : B.filter f = [] := List.filter_eq_nil_iff.mpr (fun e he => by
    simp [h e (by simp [he])])
  have hD : D.filter f = [] := List.filter_eq_nil_iff.mpr (fun e he => by
    simp [h e (by simp [he])])
  simp [List.filter_append, List.filter_cons, hA, hB, hD, ha, hb]

theorem filter_three {β : Type} (f : β → Bool) (A B C D : List β) (a b c : β)
    (h : ∀ e ∈ A ++ B ++ C ++ D, f e = false) (ha : f a = true) (hb : f b = true)
    (hc : f c = true) :
    (A ++ a :: B ++ b :: C ++ c :: D).filter f = [a, b, c] := by
  have hA : A.filter f = [] := List.filter_eq_nil_iff.mpr (fun e he => by
    simp [h e (by simp [he])])
  have hB : B.filter f = [] := List.filter_eq_nil_iff.mpr (fun e he => by
    simp [h e (by simp [he])])
  have hC : C.filter f = [] := List.filter_eq_nil_iff.mpr (fun e he => by
    simp [h e (by simp [he])])
  have hD : D.filter f = [] := List.filter_eq_nil_iff.mpr (fun e he => by
    simp [h e (by simp [he])])
  simp [List.filter_append, List.filter_cons, hA, hB, hC, hD, ha, hb, hc]

/-- C6. For a laid-out tree in which every node has a title, the call
`renderElements(data)` returns normally; among the elements it appends there
are as many node groups as tree nodes and one line fewer; for every node
(reached by a path `p`) exactly one element is that node's group, and it is
the shape `createNode` builds at the node's position (root role only for the
root); for every parent `n` and its `i`-th child `c` exactly one element is
that edge's line, and it joins `n`'s position to `c`'s position. -/
theorem renderElements_one_per_node {α : Type} [Field α] (t : Node (Placed α))
    (ht : AllTitled t) :
    ∃ out, renderElements t true [] [] = .ok out ∧
      out.countP Element.isGroup = t.size ∧
      out.countP Element.isLine = t.size - 1 ∧
      (∀ p n, t.subtreeAt p = some n →
        ∃ g, createNode n.title n.ann.x n.ann.y p.isEmpty = .ok g ∧
          g.x = n.ann.x ∧ g.y = n.ann.y ∧
          out.filter (Element.isGroupOf p) = [.group p g]) ∧
      (∀ p n i c, t.subtreeAt p = some n → n.childList[i]? = some c →
        out.filter (Element.isLineTo (p ++ [i]))
          = [.line (p ++ [i]) n.ann.x n.ann.y c.ann.x c.ann.y]) := by
  refine ⟨drawn t true [], by simpa using renderElements_eq_drawn t true [] [] ht, ?_, ?_, ?_, ?_⟩
  · exact (drawn_count t true [] ht).1
  · have := (drawn_count t true [] ht).2
    omega
  · intro p n hn
    have hnt := ht n (Node.subtreeAt_mem p t n hn)
    obtain ⟨A, D, g, hout, hg, hside, -⟩ := drawn_node_anatomy t ht p n hn hnt
    obtain ⟨g2, hg2, hx, hy⟩ := createNode_ok n.title n.ann.x n.ann.y p.isEmpty hnt
    have hgg : g2 = g := by
      rw [hg] at hg2
      exact (Except.ok.inj hg2).symm
    subst hgg
    refine ⟨g2, hg, hx, hy, ?_⟩
    rw [hout]
    exact filter_one _ A D _ hside (by simp [Element.isGroupOf, Element.isGroup, Element.node])
  · intro p n i c hn hc
    have hnt := ht n (Node.subtreeAt_mem p t n hn)
    have hct := ht c (Node.subnodes_trans t n c (Node.subtreeAt_mem p t n hn)
      (Node.child_mem_subnodes n i c hc))
    obtain ⟨A, B, C, D, gc, gp, hout, -, -, hside⟩ := drawn_edge_anatomy t p n hn i c hc hnt hct
    rw [hout]
    have h3 : (A ++ .line (p ++ [i]) n.ann.x n.ann.y c.ann.x c.ann.y
        :: B ++ .group (p ++ [i]) gc :: C ++ .group p gp :: D)
        = A ++ .line (p ++ [i]) n.ann.x n.ann.y c.ann.x c.ann.y
          :: (B ++ .group (p ++ [i]) gc :: C ++ .group p gp :: D) := by simp
    rw [h3]
    refine filter_one _ A _ _ ?_ (by simp [Element.isLineTo, Element.isLine, Element.node])
    intro e he
    simp only [List.append_assoc, List.mem_append, List.mem_cons, or_assoc] at he
    rcases he with he | he | he | he | he | he
    · exact (hside e (by simp [he])).1
    · exact (hside e (by simp [he])).1
    · subst he; simp [Element.isLineTo, Element.isLine]
    · exact (hside e (by simp [he])).1
    · subst he; simp [Element.isLineTo, Element.isLine]
    · exact (hside e (by simp [he])).1

/-- Witness for C6: the single leaf root `{title:"Summary"}`, laid out over the
reals, yields one node group and no line. -/
theorem renderElements_one_per_node_witness :
    ∃ out, renderElements
        (layoutRoot (⟨Real.cos, Real.sin, Real.pi⟩ : JsMath ℝ) (countLeafNodes summaryTree).1).1
        true [] [] = .ok out ∧
      out.countP Element.isGroup = 1 ∧ out.countP Element.isLine = 0 := by
  obtain ⟨out, h1, h2, h3, -⟩ := renderElements_one_per_node
    (layoutRoot (⟨Real.cos, Real.sin, Real.pi⟩ : JsMath ℝ) (countLeafNodes summaryTree).1).1
    (layoutRoot_allTitled _ summaryTree (by decide))
  rw [layoutRoot_size] at h2 h3
  exact ⟨out, h1, h2, h3⟩

theorem Node.subtreeAt_nil {A : Type} (t : Node A) : t.subtreeAt [] = some t := by
  rcases t with ⟨tt, _ | cs, a⟩ <;> simp [Node.subtreeAt]

/-- C7. For a laid-out tree in which every node has a title, among the
elements `renderElements(data)` appends, for every parent `n` (at path `p`)
and its `i`-th child `c`: the elements that are the edge's line, a group of
the child or a group of the parent are exactly three, in this order: the line
from `n` to `c`, then the child's group, then the parent's group. So the line
comes before both node shapes it connects. -/
theorem renderElements_line_before_shapes {α : Type} [Field α] (t : Node (Placed α))
    (ht : AllTitled t) :
    ∃ out, renderElements t true [] [] = .ok out ∧
      ∀ p n i c, t.subtreeAt p = some n → n.childList[i]? = some c →
        ∃ gc gp,
          out.filter (fun e =>
              e.isLineTo (p ++ [i]) || e.isGroupOf (p ++ [i]) || e.isGroupOf p)
            = [.line (p ++ [i]) n.ann.x n.ann.y c.ann.x c.ann.y,
               .group (p ++ [i]) gc, .group p gp] := by
  refine ⟨drawn t true [], by simpa using renderElements_eq_drawn t true [] [] ht, ?_⟩
  intro p n i c hn hc
  have hnt := ht n (Node.subtreeAt_mem p t n hn)
  have hct := ht c (Node.subnodes_trans t n c (Node.subtreeAt_mem p t n hn)
    (Node.child_mem_subnodes n i c hc))
  obtain ⟨A, B, C, D, gc, gp, hout, -, -, hside⟩ := drawn_edge_anatomy t p n hn i c hc hnt hct
  refine ⟨gc, gp, ?_⟩
  rw [hout]
  refine filter_three _ A B C D _ _ _ ?_ ?_ ?_ ?_
  · intro e he
    obtain ⟨h1, h2, h3⟩ := hside e he
    simp [h1, h2, h3]
  · simp [Element.isLineTo, Element.isLine, Element.node]
  · simp [Element.isGroupOf, Element.isGroup, Element.node]
  · simp [Element.isGroupOf, Element.isGroup, Element.node]

/-- Witness for C7: in the lease tree the line to the first child, that child's
group and the root's group come in this order. -/
theorem renderElements_line_before_shapes_witness :
    ∃ out, renderElements (leasePlaced (⟨Real.cos, Real.sin, Real.pi⟩ : JsMath ℝ))
        true [] [] = .ok out ∧
      (out.filter (fun e => e.isLineTo [0] || e.isGroupOf [0] || e.isGroupOf [])).map
          (fun e => (e.isLine, e.node))
        = [(true, [0]), (false, [0]), (false, [])] := by
  obtain ⟨out, h1, h2⟩ := renderElements_line_before_shapes
    (leasePlaced (⟨Real.cos, Real.sin, Real.pi⟩ : JsMath ℝ))
    (layoutRoot_allTitled _ leaseTree (by decide))
  refine ⟨out, h1, ?_⟩
  obtain ⟨gc, gp, h3⟩ := h2 [] _ 0
    ((leasePlaced (⟨Real.cos, Real.sin, Real.pi⟩ : JsMath ℝ)).childList.headD
      (leasePlaced ⟨Real.cos, Real.sin, Real.pi⟩))
    (Node.subtreeAt_nil _)
    (by simp [leasePlaced, layoutRoot, leaseTree, countLeafNodes, countLeafNodes.forEach,
          calculateLayout, calculateLayout.forEach, Node.childList, Node.children])
  simp only [List.nil_append] at h3
  rw [h3]
  simp [Element.isLine, Element.node]

/-- C8 fails as stated: for the lease tree (a root with two leaf children) the
groups are appended in the order first child, second child, root; the root's
shape is the last one drawn, not the first. -/
theorem renderElements_root_shape_not_first :
    ∃ out, renderElements (leasePlaced (⟨Real.cos, Real.sin, Real.pi⟩ : JsMath ℝ))
        true [] [] = .ok out ∧
      (out.filter Element.isGroup).map Element.node = [[0], [1], []] := by
  refine ⟨_, renderElements_eq_drawn _ true [] [] (layoutRoot_allTitled _ leaseTree (by decide)),
    ?_⟩
  simp [leasePlaced, layoutRoot, leaseTree, countLeafNodes, countLeafNodes.forEach,
    calculateLayout, calculateLayout.forEach, drawn, drawnList, groupOf, createNode,
    Element.isGroup, Element.node]

/-- C8 (amended). For a laid-out tree in which every node has a title, among
the elements `renderElements(data)` appends, every node's group comes after
the groups of all its descendants: for a node at path `p` and a proper
descendant at `p ++ q`, the elements that are a group of either are exactly
two, the descendant's first; and the root's group is the last element. -/
theorem renderElements_shape_after_descendants {α : Type} [Field α] (t : Node (Placed α))
    (ht : AllTitled t) :
    ∃ out, renderElements t true [] [] = .ok out ∧
      (∃ g, out.getLast? = some (.group [] g)) ∧
      ∀ p n q d, t.subtreeAt p = some n → q ≠ [] → n.subtreeAt q = some d →
        ∃ gd gp,
          out.filter (fun e => e.isGroupOf (p ++ q) || e.isGroupOf p)
            = [.group (p ++ q) gd, .group p gp] := by
  refine ⟨drawn t true [], by simpa using renderElements_eq_drawn t true [] [] ht, ?_, ?_⟩
  · obtain ⟨Z, g, hZ, -, -⟩ := drawn_last t true [] (allTitled_root ht)
    exact ⟨g, by rw [hZ]; simp⟩
  · intro p n q d hn hq hd
    have hnm := Node.subtreeAt_mem p t n hn
    have hnt := ht n hnm
    have hdt := ht d (Node.subnodes_trans t n d hnm (Node.subtreeAt_mem q n d hd))
    obtain ⟨A, B, D, gd, gp, hout, -, -, hside⟩ :=
      drawn_desc_anatomy t p n hn q hq d hd hnt hdt
    refine ⟨gd, gp, ?_⟩
    rw [hout]
    refine filter_two _ A B D _ _ ?_ ?_ ?_
    · intro e he
      obtain ⟨h1, h2⟩ := hside e he
      simp [h1, h2]
    · simp [Element.isGroupOf, Element.isGroup, Element.node]
    · simp [Element.isGroupOf, Element.isGroup, Element.node]

/-- Witness for C8 (amended): in the lease tree the first child's group comes
before the root's group, which is the last element. -/
theorem renderElements_shape_after_descendants_witness :
    ∃ out, renderElements (leasePlaced (⟨Real.cos, Real.sin, Real.pi⟩ : JsMath ℝ))
        true [] [] = .ok out ∧
      (∃ g, out.getLast? = some (.group [] g)) ∧
      (out.filter (fun e => e.isGroupOf [0] || e.isGroupOf [])).map Element.node
        = [[0], []] := by
  obtain ⟨out, h1, h2, h3⟩ := renderElements_shape_after_descendants
    (leasePlaced (⟨Real.cos, Real.sin, Real.pi⟩ : JsMath ℝ))
    (layoutRoot_allTitled _ leaseTree (by decide))
  refine ⟨out, h1, h2, ?_⟩
  obtain ⟨gd, gp, h4⟩ := h3 [] _ [0]
    ((leasePlaced (⟨Real.cos, Real.sin, Real.pi⟩ : JsMath ℝ)).childList.headD
      (leasePlaced ⟨Real.cos, Real.sin, Real.pi⟩))
    (Node.subtreeAt_nil _)
    (by simp)
    (by simp [leasePlaced, layoutRoot, leaseTree, countLeafNodes, countLeafNodes.forEach,
          calculateLayout, calculateLayout.forEach, Node.childList, Node.children,
          Node.subtreeAt, Node.subtreeAtList])
  simp only [List.nil_append] at h4
  rw [h4]
  simp [Element.node]

/-! ### Facts about `trim` and `split(' ')` -/

theorem isTrimChar_space : isTrimChar ' ' = true := by decide

theorem trim_append_space (body : JsString) : trim (body ++ [' ']) = trim body := by
  unfold trim
  rw [List.dropWhile_append]
  split
  · rename_i h
    have h2 : List.dropWhile isTrimChar body = [] := List.isEmpty_iff.mp h
    simp [h2, isTrimChar_space]
  · simp [isTrimChar_space]

theorem trim_length_le (s : JsString) : (trim s).length ≤ s.length := by
  unfold trim
  rw [List.length_reverse]
  calc (List.dropWhile isTrimChar (List.dropWhile isTrimChar s).reverse).length
      ≤ (List.dropWhile isTrimChar s).reverse.length :=
        (List.dropWhile_suffix isTrimChar).sublist.length_le
    _ = (List.dropWhile isTrimChar s).length := List.length_reverse _
    _ ≤ s.length := (List.dropWhile_suffix isTrimChar).sublist.length_le

theorem mem_of_mem_trim (s : JsString) (c : Char) (h : c ∈ trim s) : c ∈ s := by
  unfold trim at h
  rw [List.mem_reverse] at h
  have h2 := (List.dropWhile_suffix isTrimChar).sublist.subset h
  rw [List.mem_reverse] at h2
  exact (List.dropWhile_suffix isTrimChar).sublist.subset h2

theorem dropWhile_eq_self_of_head {β : Type} (p : β → Bool) (l : List β)
    (h : ∀ a t, l = a :: t → p a = false) : l.dropWhile p = l := by
  cases l with
  | nil => rfl
  | cons a t => simp [List.dropWhile_cons, h a t rfl]

theorem head_dropWhile {β : Type} (p : β → Bool) (l : List β) :
    ∀ a t, l.dropWhile p = a :: t → p a = false := by
  induction l with
  | nil => intro a t h; simp at h
  | cons b bs ih =>
    intro a t h
    by_cases hb : p b = true
    · rw [List.dropWhile_cons_of_pos hb] at h
      exact ih a t h
    · rw [List.dropWhile_cons_of_neg hb] at h
      simp only [List.cons.injEq] at h
      rw [← h.1]
      simpa using hb

theorem trim_trim (x : JsString) : trim (trim x) = trim x := by
  have hy := head_dropWhile isTrimChar x
  have hu := head_dropWhile isTrimChar (List.dropWhile isTrimChar x).reverse
  have hz : ∀ a t, trim x = a :: t → isTrimChar a = false := by
    intro a t h
    unfold trim at h
    obtain ⟨pre, hpre⟩ := List.dropWhile_suffix isTrimChar
      (l := (List.dropWhile isTrimChar x).reverse)
    have h3 := congrArg List.reverse hpre
    rw [List.reverse_append, List.reverse_reverse, h] at h3
    exact hy a _ h3.symm
  have h1 : List.dropWhile isTrimChar (trim x) = trim x :=
    dropWhile_eq_self_of_head _ _ hz
  have h2 : List.dropWhile isTrimChar (trim x).reverse = (trim x).reverse := by
    apply dropWhile_eq_self_of_head
    intro a t h
    unfold trim at h
    rw [List.reverse_reverse] at h
    exact hu a t h
  show ((List.dropWhile isTrimChar (trim x)).reverse.dropWhile isTrimChar).reverse = trim x
  rw [h1, h2, List.reverse_reverse]

theorem splitSpace_ne_nil (s : JsString) : splitSpace s ≠ [] := by
  induction s with
  | nil => simp [splitSpace]
  | cons c cs ih =>
    unfold splitSpace
    split
    · simp
    · split <;> simp

theorem splitSpace_no_space (s : JsString) : ∀ w ∈ splitSpace s, ' ' ∉ w := by
  induction s with
  | nil => simp [splitSpace]
  | cons c cs ih =>
    intro w hw
    unfold splitSpace at hw
    split at hw
    · simp only [List.mem_cons] at hw
      rcases hw with rfl | hw
      · simp
      · exact ih w hw
    · rename_i hc
      split at hw
      · simp only [List.mem_singleton] at hw
        subst hw
        simpa using fun h => hc h.symm
      · rename_i w0 ws hsp
        simp only [List.mem_cons] at hw
        rcases hw with rfl | hw
        · have := ih w0 (by rw [hsp]; simp)
          simp only [List.mem_cons, not_or]
          exact ⟨fun h => hc h.symm, this⟩
        · exact ih w (by rw [hsp]; simp [hw])

theorem splitSpace_of_no_space (s : JsString) (h : ' ' ∉ s) : splitSpace s = [s] := by
  induction s with
  | nil => rfl
  | cons c cs ih =>
    simp only [List.mem_cons, not_or] at h
    unfold splitSpace
    rw [if_neg (fun hc => h.1 hc.symm), ih h.2]

/-- Joining the pieces of `split(' ')`, each followed by a space, gives the
text followed by a space. -/
theorem splitSpace_join (s : JsString) :
    ((splitSpace s).map (fun w => w ++ [' '])).flatten = s ++ [' '] := by
  induction s with
  | nil => rfl
  | cons c cs ih =>
    unfold splitSpace
    split
    · rename_i hc
      subst hc
      simp [ih]
    · split
      · rename_i hsp
        exact absurd hsp (splitSpace_ne_nil cs)
      · rename_i w ws hsp
        rw [hsp] at ih
        simp only [List.map_cons, List.flatten_cons, List.cons_append] at ih ⊢
        rw [ih]

/-- C9 fails as stated: `aaaa bbbb` wrapped at width 4 gives the two lines
`aaaa`, `bbbb`; joined by a newline and wrapped again it gives the single line
`aaaa\nbbbb`, because the wrap splits on spaces only. -/
theorem wrapText_not_idempotent :
    wrapText "aaaa bbbb".toList 4 = ["aaaa".toList, "bbbb".toList] ∧
    wrapText (joinLines (wrapText "aaaa bbbb".toList 4)) 4 = ["aaaa\nbbbb".toList] ∧
    wrapText (joinLines (wrapText "aaaa bbbb".toList 4)) 4 ≠ wrapText "aaaa bbbb".toList 4 := by
  decide

/-! ### Facts about the wrap loop -/

theorem trim_ok (maxChars : Nat) (body : JsString)
    (h : body.length ≤ maxChars ∨ ' ' ∉ body) :
    (∃ x, trim (body ++ [' ']) = trim x) ∧
      ((trim (body ++ [' '])).length ≤ maxChars ∨ ' ' ∉ trim (body ++ [' '])) := by
  refine ⟨⟨_, rfl⟩, ?_⟩
  rw [trim_append_space]
  rcases h with h | h
  · exact Or.inl (le_trans (trim_length_le body) h)
  · exact Or.inr (fun hc => h (mem_of_mem_trim body ' ' hc))

theorem wrapWord_inv (maxChars : Nat) (st : WrapState) (word : JsString)
    (hw : ' ' ∉ word) (h : WrapInv maxChars st) : WrapInv maxChars (wrapWord maxChars st word) := by
  obtain ⟨h1, h2⟩ := h
  unfold wrapWord
  split
  · rename_i hc
    refine ⟨?_, Or.inr ⟨word, rfl, Or.inr hw⟩⟩
    intro l hl
    simp only [List.mem_append, List.mem_singleton] at hl
    rcases hl with hl | hl
    · exact h1 l hl
    · subst hl
      rcases h2 with h2 | ⟨body, hb, hbody⟩
      · rw [h2] at hc
        simp at hc
      · rw [hb]
        exact trim_ok maxChars body hbody
  · rename_i hc
    refine ⟨h1, Or.inr ⟨st.line ++ word, by simp, ?_⟩⟩
    by_cases hl : st.line = []
    · right
      simpa [hl] using hw
    · left
      have hpos : st.line.length > 0 := List.length_pos.mpr hl
      by_contra hgt
      exact hc ⟨by omega, hpos⟩

theorem foldl_wrapWord_inv (maxChars : Nat) : ∀ (ws : List JsString) (st : WrapState),
    (∀ w ∈ ws, ' ' ∉ w) → WrapInv maxChars st →
    WrapInv maxChars (ws.foldl (wrapWord maxChars) st)
  | [], _, _, h => h
  | w :: ws, st, hws, h =>
      foldl_wrapWord_inv maxChars ws _ (fun v hv => hws v (List.mem_cons_of_mem _ hv))
        (wrapWord_inv maxChars st w (hws w (List.mem_cons_self _ _)) h)

theorem wrapText_line_ok (text : JsString) (maxChars : Nat) :
    ∀ l ∈ wrapText text maxChars, (∃ x, l = trim x) ∧ (l.length ≤ maxChars ∨ ' ' ∉ l) := by
  have hinv := foldl_wrapWord_inv maxChars (splitSpace text) { line := [], tspanLines := [] }
    (splitSpace_no_space text) ⟨by simp, Or.inl rfl⟩
  intro l hl
  simp only [wrapText, List.mem_append, List.mem_singleton] at hl
  rcases hl with hl | hl
  · exact hinv.1 l hl
  · subst hl
    rcases hinv.2 with h2 | ⟨body, hb, hbody⟩
    · rw [h2]
      exact ⟨⟨_, rfl⟩, Or.inl (le_trans (trim_length_le []) (Nat.zero_le _))⟩
    · rw [hb]
      exact trim_ok maxChars body hbody

/-- Words that all fit on the running line are appended without a flush. -/
theorem foldl_wrapWord_fits (maxChars : Nat) : ∀ (ws : List JsString) (st : WrapState),
    (st.line ++ (ws.map (fun w => w ++ [' '])).flatten).length ≤ maxChars + 1 →
    ws.foldl (wrapWord maxChars) st
      = { line := st.line ++ (ws.map (fun w => w ++ [' '])).flatten,
          tspanLines := st.tspanLines }
  | [], _, _ => by simp
  | w :: ws, st, h => by
      have hstep : wrapWord maxChars st w
          = { line := st.line ++ (w ++ [' ']), tspanLines := st.tspanLines } := by
        unfold wrapWord
        rw [if_neg]
        intro hc
        simp only [List.map_cons, List.flatten_cons, List.length_append, List.length_cons,
          List.length_nil] at h hc
        omega
      rw [List.foldl_cons, hstep]
      rw [foldl_wrapWord_fits maxChars ws]
      · simp
      · simpa using h

theorem wrapText_of_trimmed (maxChars : Nat) (l : JsString) (htrim : ∃ x, l = trim x)
    (h : l.length ≤ maxChars ∨ ' ' ∉ l) : wrapText l maxChars = [l] := by
  obtain ⟨x, rfl⟩ := htrim
  rcases h with h | h
  · have hfit := foldl_wrapWord_fits maxChars (splitSpace (trim x))
      { line := [], tspanLines := [] } (by
        rw [splitSpace_join]
        simpa using h)
    simp only [wrapText, hfit, splitSpace_join, List.nil_append, trim_append_space, trim_trim]
  · simp [wrapText, splitSpace_of_no_space _ h, wrapWord, trim_append_space, trim_trim]

/-- C10. For every text and every `maxCharsPerLine`, each line the word wrap
of `createNode` produces has length at most `maxCharsPerLine` or contains no
space, that is, consists of a single word: no multi-word line exceeds the
limit, and an over-long line is one unsplit word. -/
theorem wrapText_line_limit (text : JsString) (maxChars : Nat) :
    ∀ l ∈ wrapText text maxChars, l.length ≤ maxChars ∨ ' ' ∉ l :=
  fun l hl => (wrapText_line_ok text maxChars l hl).2

/-- Witness for C10: at width 5 the long word stands alone on its line. -/
theorem wrapText_line_limit_witness :
    wrapText "a Supercalifragilistic b".toList 5
      = ["a".toList, "Supercalifragilistic".toList, "b".toList] ∧
    ("Supercalifragilistic".toList.length ≤ 5 ∨ ' ' ∉ "Supercalifragilistic".toList) :=
  ⟨by decide, wrapText_line_limit "a Supercalifragilistic b".toList 5 _ (by decide)⟩

/-- C9 (amended). Every line the word wrap produces is a fixed point of the
wrap: wrapping a produced line again at the same width gives exactly that one
line. Hence, when the wrap produces a single line, wrapping the
newline-joined result again reproduces it. -/
theorem wrapText_lines_fixed (text : JsString) (maxChars : Nat) :
    (∀ l ∈ wrapText text maxChars, wrapText l maxChars = [l]) ∧
    (∀ l, wrapText text maxChars = [l] →
      wrapText (joinLines (wrapText text maxChars)) maxChars = wrapText text maxChars) := by
  have h1 : ∀ l ∈ wrapText text maxChars, wrapText l maxChars = [l] := fun l hl =>
    wrapText_of_trimmed maxChars l (wrapText_line_ok text maxChars l hl).1
      (wrapText_line_ok text maxChars l hl).2
  refine ⟨h1, ?_⟩
  intro l hl
  have := h1 l (by rw [hl]; simp)
  rw [hl]
  simpa [joinLines] using this

/-- Witness for C9 (amended): the line `aaaa` of `aaaa bbbb` wrapped at width 4
wraps to itself. -/
theorem wrapText_lines_fixed_witness :
    "aaaa".toList ∈ wrapText "aaaa bbbb".toList 4 ∧
    wrapText "aaaa".toList 4 = ["aaaa".toList] :=
  ⟨by decide, (wrapText_lines_fixed "aaaa bbbb".toList 4).1 _ (by decide)⟩

/-! ### Facts about the bounding box: it is the fold over all nodes -/

section BoxFold
variable {α : Type} [LinearOrderedField α]

mutual
theorem calculateLayout_bb_fold (M : JsMath α) : ∀ (t : Node Nat) (x y : α) (level : Nat)
    (range : α × α) (bb : BoundingBox α),
    (calculateLayout M t x y level range bb).2
      = (calculateLayout M t x y level range bb).1.subnodes.foldl
          (fun b n => b.visit n.ann.x n.ann.y) bb
  | .mk title none lc, x, y, level, range, bb => by
      simp [calculateLayout, Node.subnodes, Node.ann]
  | .mk title (some []) lc, x, y, level, range, bb => by
      simp [calculateLayout, Node.subnodes, Node.subnodesList, Node.ann]
  | .mk title (some (c :: cs)) lc, x, y, level, range, bb => by
      have h := calculateLayout_forEach_bb_fold M (c :: cs) lc x y level range
        (300 - ((level : α) * 50)) range.1 (bb.visit x y)
      simp only [calculateLayout, Node.subnodes, List.foldl_cons, Node.ann]
      exact h
theorem calculateLayout_forEach_bb_fold (M : JsMath α) : ∀ (l : List (Node Nat)) (lc : Nat)
    (x y : α) (level : Nat) (range : α × α) (dist cur : α) (bb : BoundingBox α),
    (calculateLayout.forEach M l lc x y level range dist cur bb).2.2
      = (Node.subnodesList (calculateLayout.forEach M l lc x y level range dist cur bb).1).foldl
          (fun b n => b.visit n.ann.x n.ann.y) bb
  | [], lc, x, y, level, range, dist, cur, bb => by
      simp [calculateLayout.forEach, Node.subnodesList]
  | c :: cs, lc, x, y, level, range, dist, cur, bb => by
      simp only [calculateLayout.forEach, Node.subnodesList, List.foldl_append]
      rw [← calculateLayout_bb_fold M c]
      exact calculateLayout_forEach_bb_fold M cs lc x y level range dist _ _
end

theorem foldl_visit_fields (L : List (Node (Placed α))) : ∀ (bb : BoundingBox α),
    (L.foldl (fun b n => b.visit n.ann.x n.ann.y) bb).minX
        = (L.map (fun n => n.ann.x - (nodeWidth : α))).foldl mathMin bb.minX ∧
    (L.foldl (fun b n => b.visit n.ann.x n.ann.y) bb).maxX
        = (L.map (fun n => n.ann.x + (nodeWidth : α))).foldl mathMax bb.maxX ∧
    (L.foldl (fun b n => b.visit n.ann.x n.ann.y) bb).minY
        = (L.map (fun n => n.ann.y - (nodeHeight : α))).foldl mathMin bb.minY ∧
    (L.foldl (fun b n => b.visit n.ann.x n.ann.y) bb).maxY
        = (L.map (fun n => n.ann.y + (nodeHeight : α))).foldl mathMax bb.maxY := by
  induction L with
  | nil => intro bb; simp
  | cons n L ih =>
    intro bb
    simp only [List.foldl_cons, List.map_cons]
    exact ih (bb.visit n.ann.x n.ann.y)

theorem foldl_mathMin_some (vs : List α) : ∀ (m : α),
    ∃ k, vs.foldl mathMin (some m) = some k ∧ k ≤ m ∧ (∀ v ∈ vs, k ≤ v) ∧ (k = m ∨ k ∈ vs) := by
  induction vs with
  | nil => intro m; exact ⟨m, rfl, le_rfl, by simp, Or.inl rfl⟩
  | cons v vs ih =>
    intro m
    obtain ⟨k, hk, hle, hall, hmem⟩ := ih (min m v)
    refine ⟨k, by simpa [mathMin] using hk, le_trans hle (min_le_left _ _), ?_, ?_⟩
    · intro w hw
      rcases List.mem_cons.mp hw with rfl | hw
      · exact le_trans hle (min_le_right _ _)
      · exact hall w hw
    · rcases hmem with hmem | hmem
      · rcases min_choice m v with h | h
        · exact Or.inl (hmem.trans h)
        · exact Or.inr (by rw [hmem, h]; exact List.mem_cons_self _ _)
      · exact Or.inr (List.mem_cons_of_mem _ hmem)

theorem foldl_mathMin_least (v : α) (vs : List α) :
    ∃ k, (v :: vs).foldl mathMin none = some k ∧ (∀ w ∈ v :: vs, k ≤ w) ∧ k ∈ v :: vs := by
  obtain ⟨k, hk, hle, hall, hmem⟩ := foldl_mathMin_some vs v
  refine ⟨k, by simpa [mathMin] using hk, ?_, ?_⟩
  · intro w hw
    rcases List.mem_cons.mp hw with rfl | hw
    · exact hle
    · exact hall w hw
  · rcases hmem with rfl | hmem
    · exact List.mem_cons_self _ _
    · exact List.mem_cons_of_mem _ hmem

theorem foldl_mathMax_some (vs : List α) : ∀ (m : α),
    ∃ k, vs.foldl mathMax (some m) = some k ∧ m ≤ k ∧ (∀ v ∈ vs, v ≤ k) ∧ (k = m ∨ k ∈ vs) := by
  induction vs with
  | nil => intro m; exact ⟨m, rfl, le_rfl, by simp, Or.inl rfl⟩
  | cons v vs ih =>
    intro m
    obtain ⟨k, hk, hle, hall, hmem⟩ := ih (max m v)
    refine ⟨k, by simpa [mathMax] using hk, le_trans (le_max_left _ _) hle, ?_, ?_⟩
    · intro w hw
      rcases List.mem_cons.mp hw with rfl | hw
      · exact le_trans (le_max_right _ _) hle
      · exact hall w hw
    · rcases hmem with hmem | hmem
      · rcases max_choice m v with h | h
        · exact Or.inl (hmem.trans h)
        · exact Or.inr (by rw [hmem, h]; exact List.mem_cons_self _ _)
      · exact Or.inr (List.mem_cons_of_mem _ hmem)

theorem foldl_mathMax_greatest (v : α) (vs : List α) :
    ∃ k, (v :: vs).foldl mathMax none = some k ∧ (∀ w ∈ v :: vs, w ≤ k) ∧ k ∈ v :: vs := by
  obtain ⟨k, hk, hle, hall, hmem⟩ := foldl_mathMax_some vs v
  refine ⟨k, by simpa [mathMax] using hk, ?_, ?_⟩
  · intro w hw
    rcases List.mem_cons.mp hw with rfl | hw
    · exact hle
    · exact hall w hw
  · rcases hmem with rfl | hmem
    · exact List.mem_cons_self _ _
    · exact List.mem_cons_of_mem _ hmem

end BoxFold

theorem Node.subnodes_eq_cons {A : Type} (t : Node A) : ∃ rest, t.subnodes = t :: rest := by
  rcases t with ⟨tt, _ | cs, a⟩
  · exact ⟨[], by simp [Node.subnodes]⟩
  · exact ⟨Node.subnodesList cs, by simp [Node.subnodes]⟩

/-- C11 (amended). The bounding box `calculateLayout` computes from the root
call expands each node's position by the full 160 by 80 dimensions, not by
half of them: `minX` is the least `x - 160` over all nodes, `maxX` the greatest
`x + 160`, `minY` the least `y - 80`, `maxY` the greatest `y + 80`; the view
box is `(minX - 80, minY - 80)` with size
`(maxX - minX + 160, maxY - minY + 160)`. -/
theorem calculateLayout_boundingBox_full {α : Type} [LinearOrderedField α] (M : JsMath α)
    (t : Node Nat) :
    ∃ minX minY maxX maxY,
      (layoutRoot M t).2
        = { minX := some minX, minY := some minY, maxX := some maxX, maxY := some maxY } ∧
      ((∀ n ∈ (layoutRoot M t).1.subnodes, minX ≤ n.ann.x - 160) ∧
        ∃ n ∈ (layoutRoot M t).1.subnodes, minX = n.ann.x - 160) ∧
      ((∀ n ∈ (layoutRoot M t).1.subnodes, n.ann.x + 160 ≤ maxX) ∧
        ∃ n ∈ (layoutRoot M t).1.subnodes, maxX = n.ann.x + 160) ∧
      ((∀ n ∈ (layoutRoot M t).1.subnodes, minY ≤ n.ann.y - 80) ∧
        ∃ n ∈ (layoutRoot M t).1.subnodes, minY = n.ann.y - 80) ∧
      ((∀ n ∈ (layoutRoot M t).1.subnodes, n.ann.y + 80 ≤ maxY) ∧
        ∃ n ∈ (layoutRoot M t).1.subnodes, maxY = n.ann.y + 80) ∧
      viewBoxOf (layoutRoot M t).2
        = { x := some (minX - 80), y := some (minY - 80),
            width := some (maxX - minX + 160), height := some (maxY - minY + 160) } := by
  obtain ⟨rest, hrest⟩ := Node.subnodes_eq_cons (layoutRoot M t).1
  have hfold : (layoutRoot M t).2 = (layoutRoot M t).1.subnodes.foldl
      (fun b n => b.visit n.ann.x n.ann.y) BoundingBox.init :=
    calculateLayout_bb_fold M t 0 0 0 (0, 2 * M.PI) BoundingBox.init
  obtain ⟨f1, f2, f3, f4⟩ := foldl_visit_fields (layoutRoot M t).1.subnodes
    (BoundingBox.init : BoundingBox α)
  rw [← hfold] at f1 f2 f3 f4
  rw [hrest] at f1 f2 f3 f4 ⊢
  simp only [BoundingBox.init, List.map_cons, nodeWidth, nodeHeight, Nat.cast_ofNat]
    at f1 f2 f3 f4
  obtain ⟨a, ha, ha1, ha2⟩ := foldl_mathMin_least ((layoutRoot M t).1.ann.x - 160)
    (rest.map (fun n => n.ann.x - 160))
  obtain ⟨b, hb, hb1, hb2⟩ := foldl_mathMax_greatest ((layoutRoot M t).1.ann.x + 160)
    (rest.map (fun n => n.ann.x + 160))
  obtain ⟨c, hc, hc1, hc2⟩ := foldl_mathMin_least ((layoutRoot M t).1.ann.y - 80)
    (rest.map (fun n => n.ann.y - 80))
  obtain ⟨d, hd, hd1, hd2⟩ := foldl_mathMax_greatest ((layoutRoot M t).1.ann.y + 80)
    (rest.map (fun n => n.ann.y + 80))
  rw [ha] at f1
  rw [hb] at f2
  rw [hc] at f3
  rw [hd] at f4
  have hbb : (layoutRoot M t).2
      = { minX := some a, minY := some c, maxX := some b, maxY := some d } := by
    rcases hq : (layoutRoot M t).2 with ⟨q1, q2, q3, q4⟩
    rw [hq] at f1 f2 f3 f4
    simp only at f1 f2 f3 f4
    rw [f1, f2, f3, f4]
  have key : ∀ (g : Node (Placed α) → α) (k : α),
      k ∈ g (layoutRoot M t).1 :: rest.map g →
      ∃ n ∈ (layoutRoot M t).1 :: rest, k = g n := by
    intro g k hk
    rcases List.mem_cons.mp hk with hk | hk
    · exact ⟨_, List.mem_cons_self _ _, hk⟩
    · obtain ⟨n, hn, rfl⟩ := List.mem_map.mp hk
      exact ⟨n, List.mem_cons_of_mem _ hn, rfl⟩
  have all : ∀ (g : Node (Placed α) → α) (n : Node (Placed α)),
      n ∈ (layoutRoot M t).1 :: rest → g n ∈ g (layoutRoot M t).1 :: rest.map g := by
    intro g n hn
    rcases List.mem_cons.mp hn with rfl | hn
    · exact List.mem_cons_self _ _
    · exact List.mem_cons_of_mem _ (List.mem_map_of_mem g hn)
  refine ⟨a, c, b, d, hbb, ⟨?_, ?_⟩, ⟨?_, ?_⟩, ⟨?_, ?_⟩, ⟨?_, ?_⟩, ?_⟩
  · exact fun n hn => ha1 _ (all (fun n => n.ann.x - 160) n hn)
  · exact key (fun n => n.ann.x - 160) a ha2
  · exact fun n hn => hb1 _ (all (fun n => n.ann.x + 160) n hn)
  · exact key (fun n => n.ann.x + 160) b hb2
  · exact fun n hn => hc1 _ (all (fun n => n.ann.y - 80) n hn)
  · exact key (fun n => n.ann.y - 80) c hc2
  · exact fun n hn => hd1 _ (all (fun n => n.ann.y + 80) n hn)
  · exact key (fun n => n.ann.y + 80) d hd2
  · rw [hbb]
    simp only [viewBoxOf, Option.map_some', padding, Nat.cast_ofNat]
    norm_num

/-- C11 fails as stated: for the single leaf root `{title:"Summary"}` at the
origin the bounding box is `[-160, 160] × [-80, 80]` and the view box has
origin `(-240, -160)` and size 480 by 320, not origin `(-160, -120)` and size
320 by 240. -/
theorem boundingBox_not_half_footprint :
    (layoutRoot (⟨Real.cos, Real.sin, Real.pi⟩ : JsMath ℝ) (countLeafNodes summaryTree).1).2
      = { minX := some (-160), minY := some (-80), maxX := some 160, maxY := some 80 } ∧
    viewBoxOf
        (layoutRoot (⟨Real.cos, Real.sin, Real.pi⟩ : JsMath ℝ) (countLeafNodes summaryTree).1).2
      = { x := some (-240), y := some (-160), width := some 480, height := some 320 } ∧
    viewBoxOf
        (layoutRoot (⟨Real.cos, Real.sin, Real.pi⟩ : JsMath ℝ) (countLeafNodes summaryTree).1).2
      ≠ { x := some (-160), y := some (-120), width := some 320, height := some 240 } := by
  have h : (layoutRoot (⟨Real.cos, Real.sin, Real.pi⟩ : JsMath ℝ)
      (countLeafNodes summaryTree).1).2
      = { minX := some (-160), minY := some (-80), maxX := some 160, maxY := some 80 } := by
    simp [layoutRoot, summaryTree, countLeafNodes, calculateLayout, BoundingBox.visit,
      BoundingBox.init, mathMin, mathMax, nodeWidth, nodeHeight]
  refine ⟨h, ?_, ?_⟩
  · rw [h]
    simp only [viewBoxOf, Option.map_some', padding, Nat.cast_ofNat]
    norm_num
  · rw [h]
    simp only [viewBoxOf, Option.map_some', padding, Nat.cast_ofNat]
    norm_num

/-- Witness for C11 (amended): in the lease tree every node's `x - 160` is at
least the box's `minX`. -/
theorem calculateLayout_boundingBox_full_witness :
    ∃ minX : ℝ,
      (layoutRoot (⟨Real.cos, Real.sin, Real.pi⟩ : JsMath ℝ)
        (countLeafNodes leaseTree).1).2.minX = some minX ∧
      minX ≤ (leasePlaced (⟨Real.cos, Real.sin, Real.pi⟩ : JsMath ℝ)).ann.x - 160 := by
  obtain ⟨a, c, b, d, hbb, ⟨h1, -⟩, -⟩ := calculateLayout_boundingBox_full
    (⟨Real.cos, Real.sin, Real.pi⟩ : JsMath ℝ) (countLeafNodes leaseTree).1
  exact ⟨a, by rw [hbb], h1 _ (Node.mem_subnodes_self _)⟩

set_option maxRecDepth 100000 in
theorem wrapText_tallTitle_length : (wrapText tallTitle 18).length = 19 := by decide

/-- C12, evaluated at a failing input. The single leaf root whose title wraps
to 19 lines is drawn as a rectangle of height `16 * 19 + 2 * 15 = 334` centred
at the origin, spanning `y` from -167 to 167, while the view box spans `y`
from -160 to 160: the rectangle is not inside the view box. -/
theorem drawMindMap_tall_title_overflows :
    ∃ svg placed g,
      drawMindMap (⟨Real.cos, Real.sin, Real.pi⟩ : JsMath ℝ)
          (some { innerHTML := "", appended := [] }) (some tallTree)
        = { container := some { innerHTML := "", appended := [svg] },
            annotated := some placed, thrown := none } ∧
      svg.children = [.group [] g] ∧
      svg.viewBox = { x := some (-240), y := some (-160), width := some 480,
                      height := some 320 } ∧
      g.x = 0 ∧ g.y = 0 ∧ g.rectWidth = 160 ∧ g.rectHeight = 334 ∧ g.rectY = -167 ∧
      ¬ svg.viewBox.ContainsRect g.x g.y g.rectWidth g.rectHeight := by
  have hv : ValidTree tallTree := by
    refine ⟨rfl, ?_⟩
    intro n hn
    simp only [tallTree, Node.subnodes, List.mem_singleton] at hn
    subst hn
    rfl
  have hbb : (layoutRoot (⟨Real.cos, Real.sin, Real.pi⟩ : JsMath ℝ)
      (countLeafNodes tallTree).1).2
      = { minX := some (-160), minY := some (-80), maxX := some 160, maxY := some 80 } := by
    simp [layoutRoot, tallTree, countLeafNodes, calculateLayout, BoundingBox.visit,
      BoundingBox.init, mathMin, mathMax, nodeWidth, nodeHeight]
  have hvb : viewBoxOf (layoutRoot (⟨Real.cos, Real.sin, Real.pi⟩ : JsMath ℝ)
      (countLeafNodes tallTree).1).2
      = { x := some (-240), y := some (-160), width := some 480, height := some 320 } := by
    rw [hbb]
    simp only [viewBoxOf, Option.map_some', padding, Nat.cast_ofNat]
    norm_num
  have hdrawn : drawn (layoutRoot (⟨Real.cos, Real.sin, Real.pi⟩ : JsMath ℝ)
      (countLeafNodes tallTree).1).1 true []
      = [.group [] { x := 0, y := 0, fontSize := 14, tspans := wrapText tallTitle 18,
                     textY := -(334 / 2) + 16 + 15 - 16 / 4,
                     rectX := -160 / 2, rectY := -167, rectWidth := 160, rectHeight := 334,
                     fill := "#3b82f6" }] := by
    simp only [layoutRoot, tallTree, countLeafNodes, calculateLayout, drawn, groupOf,
      createNode, maxCharsPerLine, wrapText_tallTitle_length, lineHeight, verticalPadding,
      rectWidth, fontSize, rectFill, if_true]
    norm_num
  refine ⟨_, _, _, drawMindMap_valid _ _ tallTree hv, hdrawn, hvb, rfl, rfl, rfl, rfl, rfl, ?_⟩
  rw [hvb]
  simp only [ViewBox.ContainsRect]
  norm_num

/-! ### Facts about the drawn elements: every group belongs to a node -/

section GroupFacts
variable {α : Type} [Field α]

theorem createNode_attrs (title : JsString) (x y : α) (r : Bool) (g : Shape α)
    (h : createNode (some title) x y r = .ok g) :
    g.fill = rectFill r ∧ g.rectWidth = (rectWidth r : α) ∧ g.fontSize = fontSize r ∧
    g.tspans = wrapText title (maxCharsPerLine r) ∧ g.x = x ∧ g.y = y := by
  simp only [createNode, Except.ok.injEq] at h
  subst h
  exact ⟨rfl, rfl, rfl, rfl, rfl, rfl⟩

theorem groupOf_group (title : Option JsString) (x y : α) (r : Bool) (path p : List Nat)
    (g : Shape α) (h : Element.group p g ∈ groupOf title x y r path) :
    p = path ∧ createNode title x y r = .ok g := by
  unfold groupOf at h
  split at h
  · simp at h
  · rename_i g2 hg2
    simp only [List.mem_singleton, Element.group.injEq] at h
    rw [hg2, h.1, h.2]
    exact ⟨rfl, rfl⟩

mutual
theorem drawn_group : ∀ (t : Node (Placed α)) (r : Bool) (path p : List Nat) (g : Shape α),
    Element.group p g ∈ drawn t r path →
    ∃ q n, p = path ++ q ∧ t.subtreeAt q = some n ∧
      createNode n.title n.ann.x n.ann.y (r && q.isEmpty) = .ok g
  | .mk title none a, r, path, p, g => by
      intro h
      obtain ⟨h1, h2⟩ := groupOf_group title a.x a.y r path p g (by simpa [drawn] using h)
      exact ⟨[], _, by simp [h1], Node.subtreeAt_nil _, by simpa [Node.title, Node.ann] using h2⟩
  | .mk title (some cs) a, r, path, p, g => by
      intro h
      simp only [drawn, List.mem_append] at h
      rcases h with h | h
      · obtain ⟨j, q, n, hp, hn, hg⟩ := drawnList_group cs a.x a.y path 0 p g h
        exact ⟨j :: q, n, by simpa using hp, by simpa [Node.subtreeAt] using hn,
          by simpa using hg⟩
      · obtain ⟨h1, h2⟩ := groupOf_group title a.x a.y r path p g h
        exact ⟨[], _, by simp [h1], Node.subtreeAt_nil _,
          by simpa [Node.title, Node.ann] using h2⟩
theorem drawnList_group : ∀ (l : List (Node (Placed α))) (nx ny : α) (path : List Nat)
    (i : Nat) (p : List Nat) (g : Shape α),
    Element.group p g ∈ drawnList l nx ny path i →
    ∃ j q n, p = path ++ (i + j) :: q ∧ Node.subtreeAtList l j q = some n ∧
      createNode n.title n.ann.x n.ann.y false = .ok g
  | [], nx, ny, path, i, p, g => by simp [drawnList]
  | c :: cs, nx, ny, path, i, p, g => by
      intro h
      simp only [drawnList, List.cons_append, List.mem_cons, List.mem_append] at h
      rcases h with h | h | h
      · cases h
      · obtain ⟨q, n, hp, hn, hg⟩ := drawn_group c false (path ++ [i]) p g h
        exact ⟨0, q, n, by simpa using hp, by simpa [Node.subtreeAtList] using hn,
          by simpa using hg⟩
      · obtain ⟨j, q, n, hp, hn, hg⟩ := drawnList_group cs nx ny path (i + 1) p g h
        refine ⟨j + 1, q, n, ?_, by simpa [Node.subtreeAtList] using hn, hg⟩
        rw [hp]
        congr 2
        omega
end

end GroupFacts

/-- C13. For a laid-out tree in which every node has a title, among the
elements `renderElements(data)` appends exactly one carries a root-role
attribute, and it is the group of the root node (path `[]`), with fill
`#3b82f6`, width 160, font size 14 and its title wrapped at 18, whether or not
the root has children; the group of every other node has fill `#10b981`,
width 140, font size 12 and its title wrapped at 16. -/
theorem renderElements_roles {α : Type} [Field α] (t : Node (Placed α)) (ht : AllTitled t) :
    ∃ out, renderElements t true [] [] = .ok out ∧
      (∃ g title, t.title = some title ∧
        out.filter Element.rootStyled = [.group [] g] ∧
        g.fill = "#3b82f6" ∧ g.rectWidth = 160 ∧ g.fontSize = 14 ∧
        g.tspans = wrapText title 18) ∧
      (∀ p g, Element.group p g ∈ out → p ≠ [] →
        ∃ n title, t.subtreeAt p = some n ∧ n.title = some title ∧
          g.fill = "#10b981" ∧ g.rectWidth = 140 ∧ g.fontSize = 12 ∧
          g.tspans = wrapText title 16) := by
  have hnon : ∀ p g, Element.group p g ∈ drawn t true [] → p ≠ [] →
      ∃ n title, t.subtreeAt p = some n ∧ n.title = some title ∧
        g.fill = "#10b981" ∧ g.rectWidth = 140 ∧ g.fontSize = 12 ∧
        g.tspans = wrapText title 16 := by
    intro p g hmem hp
    obtain ⟨q, n, hq, hn, hg⟩ := drawn_group t true [] p g hmem
    simp only [List.nil_append] at hq
    subst hq
    have hqe : p.isEmpty = false := by
      cases p with
      | nil => exact absurd rfl hp
      | cons a b => rfl
    rw [hqe] at hg
    have hnt := ht n (Node.subtreeAt_mem p t n hn)
    obtain ⟨title, htitle⟩ := Option.isSome_iff_exists.mp hnt
    rw [htitle] at hg
    obtain ⟨h1, h2, h3, h4, -, -⟩ := createNode_attrs title _ _ _ g hg
    refine ⟨n, title, hn, htitle, ?_, ?_, ?_, ?_⟩
    · simpa [rectFill] using h1
    · simpa [rectWidth] using h2
    · simpa [fontSize] using h3
    · simpa [maxCharsPerLine] using h4
  refine ⟨drawn t true [], by simpa using renderElements_eq_drawn t true [] [] ht, ?_, hnon⟩
  obtain ⟨Z, g, hZ, hg, hZdef⟩ := drawn_last t true [] (allTitled_root ht)
  obtain ⟨title, htitle⟩ := Option.isSome_iff_exists.mp (allTitled_root ht)
  rw [htitle] at hg
  obtain ⟨h1, h2, h3, h4, -, -⟩ := createNode_attrs title _ _ _ g hg
  have hfill : g.fill = "#3b82f6" := by simpa [rectFill] using h1
  refine ⟨g, title, htitle, ?_, hfill, by simpa [rectWidth] using h2,
    by simpa [fontSize] using h3, by simpa [maxCharsPerLine] using h4⟩
  rw [hZ]
  refine filter_one _ Z [] _ ?_ (by simp [Element.rootStyled, hfill])
  intro e he
  simp only [List.append_nil] at he
  cases e with
  | line q x1 y1 x2 y2 => rfl
  | group q g2 =>
    have hq : q ≠ [] := by
      rw [hZdef] at he
      obtain ⟨k, s, -, hks⟩ := drawnList_node _ _ _ _ _ _ he
      simp only [Element.node, List.nil_append] at hks
      rw [hks]
      exact List.cons_ne_nil _ _
    obtain ⟨n, title2, -, -, hf, -, hs, -⟩ := hnon q g2 (by rw [hZ]; simp [he]) hq
    simp [Element.rootStyled, hf, hs]

/-- Witness for C13: in the lease tree the group of the first child (path
`[0]`) is drawn with the non-root fill. -/
theorem renderElements_roles_witness :
    ∃ out, renderElements (leasePlaced (⟨Real.cos, Real.sin, Real.pi⟩ : JsMath ℝ))
        true [] [] = .ok out ∧
      (out.filter Element.rootStyled).map Element.node = [[]] ∧
      ∀ g, Element.group [0] g ∈ out → g.fill = "#10b981" := by
  obtain ⟨out, h1, ⟨g, title, -, hf, -⟩, h3⟩ := renderElements_roles
    (leasePlaced (⟨Real.cos, Real.sin, Real.pi⟩ : JsMath ℝ))
    (layoutRoot_allTitled _ leaseTree (by decide))
  refine ⟨out, h1, by rw [hf]; rfl, ?_⟩
  intro g2 hg2
  obtain ⟨n, title2, -, -, hfill, -⟩ := h3 [0] g2 hg2 (by simp)
  exact hfill

/-- C14, evaluated at failing inputs. With an absent container `drawMindMap`
throws a `TypeError` whatever the data (the guard `!container` holds and its
branch assigns `container.innerHTML`); with a present container and a tree
whose child has no title it throws a `TypeError` from `createNode`
(`text.split` on `undefined`), after clearing the container and annotating
the tree, and no svg is attached. -/
theorem drawMindMap_throws {α : Type} [LinearOrderedField α] (M : JsMath α)
    (data : Option (Node Unit)) (c : Container α) :
    drawMindMap M none data
      = { container := none, annotated := none, thrown := some .typeError } ∧
    drawMindMap M (some c) (some untitledChildTree)
      = { container := some { innerHTML := "", appended := [] },
          annotated := some (layoutRoot M (countLeafNodes untitledChildTree).1).1,
          thrown := some .typeError } := by
  refine ⟨rfl, ?_⟩
  simp [drawMindMap, untitledChildTree, titleFalsy, Node.title, layoutRoot, countLeafNodes,
    countLeafNodes.forEach, calculateLayout, calculateLayout.forEach, renderElements,
    renderElements.forEach, createNode]

/-- C15, evaluated at a failing input. `mindmap.js` binds `drawMindMap` and
leaves `renderMindMap` unbound, so for every response carrying `mindmap_data`
the handler's call `renderMindMap(mindmapContainer, data.mindmap_data)` throws
a `ReferenceError`: the handler ends in its catch branch with the feedback
`Error: Unable to connect to the server. ...`, the mind map container is left
as it was and the results container is not displayed. -/
theorem demystify_renderMindMap_unbound {α : Type} [LinearOrderedField α] (M : JsMath α)
    (st : HandlerState α) (data : Node Unit) :
    mindmapJsScope M "renderMindMap" = none ∧
    (mindmapJsScope M "drawMindMap").isSome = true ∧
    demystifyOnData (mindmapJsScope M) st (some data)
      = { mindmapContainer := st.mindmapContainer, resultsShown := st.resultsShown,
          feedback := some (.failure "Error: Unable to connect to the server. "
            .referenceError) } := by
  refine ⟨by simp [mindmapJsScope], by simp [mindmapJsScope], ?_⟩
  simp [demystifyOnData, mindmapJsScope, handlerCatch]

/-! ### Facts about `calculateLayout`: nesting of the angular spans -/

mutual
theorem Node.subnodes_induction {A : Type} (P : Node A → Prop) : ∀ (t : Node A), P t →
    (∀ n ∈ t.subnodes, P n → ∀ cs, n.children = some cs → ∀ c ∈ cs, P c) →
    ∀ n ∈ t.subnodes, P n
  | .mk tt none a => by
      intro h0 _ n hn
      simp only [Node.subnodes, List.mem_singleton] at hn
      subst hn
      exact h0
  | .mk tt (some cs) a => by
      intro h0 hstep n hn
      simp only [Node.subnodes, List.mem_cons] at hn
      rcases hn with hn | hn
      · subst hn
        exact h0
      · refine Node.subnodesList_induction P cs
          (fun c hc => hstep _ (Node.mem_subnodes_self _) h0 cs rfl c hc) ?_ n hn
        intro c hc m hm hPm ds hds d hd
        exact hstep m (@Node.mem_subnodes_child _ (.mk tt (some cs) a) cs rfl c hc m hm)
          hPm ds hds d hd
theorem Node.subnodesList_induction {A : Type} (P : Node A → Prop) : ∀ (l : List (Node A)),
    (∀ c ∈ l, P c) →
    (∀ c ∈ l, ∀ n ∈ c.subnodes, P n → ∀ cs, n.children = some cs → ∀ d ∈ cs, P d) →
    ∀ n ∈ Node.subnodesList l, P n
  | [] => by
      intro _ _ n hn
      simp [Node.subnodesList] at hn
  | c :: cs => by
      intro h0 hstep n hn
      simp only [Node.subnodesList, List.mem_append] at hn
      rcases hn with hn | hn
      · exact Node.subnodes_induction P c (h0 c (List.mem_cons_self _ _))
          (hstep c (List.mem_cons_self _ _)) n hn
      · exact Node.subnodesList_induction P cs
          (fun d hd => h0 d (List.mem_cons_of_mem _ hd))
          (fun d hd => hstep d (List.mem_cons_of_mem _ hd)) n hn
end

section Nesting
variable {α : Type} [LinearOrderedField α]

theorem isPartition_bounds : ∀ (l : List (α × α)) (s e : α), IsPartition l s e →
    (∀ sp ∈ l, sp.1 ≤ sp.2) → s ≤ e ∧ ∀ sp ∈ l, s ≤ sp.1 ∧ sp.2 ≤ e
  | [], s, e => by
      intro h _
      simp only [IsPartition] at h
      exact ⟨le_of_eq h, by simp⟩
  | (a, b) :: rest, s, e => by
      intro h hw
      simp only [IsPartition] at h
      obtain ⟨h1, h2⟩ := h
      obtain ⟨ih1, ih2⟩ := isPartition_bounds rest b e h2
        (fun sp hsp => hw sp (List.mem_cons_of_mem _ hsp))
      have hab : a ≤ b := hw (a, b) (List.mem_cons_self _ _)
      subst h1
      refine ⟨le_trans hab ih1, ?_⟩
      intro sp hsp
      rcases List.mem_cons.mp hsp with rfl | hsp
      · exact ⟨le_rfl, ih1⟩
      · exact ⟨le_trans hab (ih2 sp hsp).1, (ih2 sp hsp).2⟩

/-- A node with a non-negative span whose children share it exactly contains
each child's span, and each child's span is non-negative. -/
theorem spansExact_child_bounds (n : Node (Placed α)) (hn : SpansExact n)
    (hle : n.ann.angleStart ≤ n.ann.angleEnd) (cs : List (Node (Placed α)))
    (hcs : n.children = some cs) (c : Node (Placed α)) (hc : c ∈ cs) :
    c.ann.angleStart ≤ c.ann.angleEnd ∧ n.ann.angleStart ≤ c.ann.angleStart ∧
      c.ann.angleEnd ≤ n.ann.angleEnd := by
  obtain ⟨h1, -, h3⟩ := hn cs hcs (List.ne_nil_of_mem hc)
  have hw : ∀ d ∈ cs, d.ann.angleStart ≤ d.ann.angleEnd := by
    intro d hd
    have := h3 d hd
    simp only [spanWidth] at this
    have hnn : 0 ≤ ((d.ann.leafCount : α) / (n.ann.leafCount : α))
        * (n.ann.angleEnd - n.ann.angleStart) :=
      mul_nonneg (div_nonneg (Nat.cast_nonneg _) (Nat.cast_nonneg _)) (sub_nonneg.mpr hle)
    linarith
  obtain ⟨-, hb⟩ := isPartition_bounds (cs.map span) _ _ h1 (by
    intro sp hsp
    obtain ⟨d, hd, rfl⟩ := List.mem_map.mp hsp
    exact hw d hd)
  have := hb (span c) (List.mem_map_of_mem span hc)
  exact ⟨hw c hc, this.1, this.2⟩

theorem calculateLayout_leafCount_ne_zero (M : JsMath α) (t : Node Nat)
    (hrule : ∀ n ∈ t.subnodes, leafCountRule n) (x y : α) (level : Nat)
    (range : α × α) (bb : BoundingBox α) :
    ∀ n ∈ (calculateLayout M t x y level range bb).1.subnodes, n.ann.leafCount ≠ 0 := by
  intro n hn
  obtain ⟨t2, ht2, x2, y2, level2, range2, bb2, rfl⟩ :=
    calculateLayout_subcall M t x y level range bb n hn
  have := leafCount_pos t2 (fun k hk => hrule k (Node.subnodes_trans t t2 k ht2 hk))
  rw [calculateLayout_ann]
  exact Nat.pos_iff_ne_zero.mp this

theorem calculateLayout_spans_within (M : JsMath α) (t : Node Nat)
    (hrule : ∀ n ∈ t.subnodes, leafCountRule n) (x y : α) (level : Nat)
    (range : α × α) (bb : BoundingBox α) (hle : range.1 ≤ range.2) :
    ∀ n ∈ (calculateLayout M t x y level range bb).1.subnodes,
      n.ann.angleStart ≤ n.ann.angleEnd ∧ range.1 ≤ n.ann.angleStart ∧
        n.ann.angleEnd ≤ range.2 := by
  have hexact := calculateLayout_spansExact M t hrule x y level range bb
  refine Node.subnodes_induction
    (fun (n : Node (Placed α)) => n.ann.angleStart ≤ n.ann.angleEnd ∧
      range.1 ≤ n.ann.angleStart ∧ n.ann.angleEnd ≤ range.2) _ ?_ ?_
  · show _ ∧ _ ∧ _
    rw [calculateLayout_ann]
    exact ⟨hle, le_rfl, le_rfl⟩
  · intro n hn hP cs hcs c hc
    obtain ⟨h1, h2, h3⟩ := spansExact_child_bounds n (hexact n hn) hP.1 cs hcs c hc
    exact ⟨h1, le_trans hP.2.1 h2, le_trans h3 hP.2.2⟩

end Nesting

/-! ### The angle computation: exact arithmetic against binary64 -/

theorem forEach_span_eq_childRanges {α : Type} [LinearOrderedField α] (M : JsMath α)
    (lc : Nat) (x y : α) (level : Nat) (range : α × α) (dist : α) :
    ∀ (l : List (Node Nat)) (cur : α) (bb : BoundingBox α),
    (calculateLayout.forEach M l lc x y level range dist cur bb).1.map span
      = childRanges fieldArith (l.map Node.ann) lc range cur
  | [], cur, bb => by simp [calculateLayout.forEach, childRanges]
  | c :: cs, cur, bb => by
      simp only [calculateLayout.forEach, List.map_cons, childRanges]
      rw [forEach_span_eq_childRanges M lc x y level range dist cs]
      simp [span, calculateLayout_ann, fieldArith]

/-- With exact arithmetic `childRanges` gives the spans `calculateLayout`
records on the children of the node it is called on. -/
theorem calculateLayout_children_span {α : Type} [LinearOrderedField α] (M : JsMath α)
    (t : Node Nat) (x y : α) (level : Nat) (range : α × α) (bb : BoundingBox α) :
    (calculateLayout M t x y level range bb).1.childList.map span
      = childRanges fieldArith (t.childList.map Node.ann) t.ann range range.1 := by
  rcases t with ⟨title, _ | _ | ⟨c, cs⟩, lc⟩
  · simp [calculateLayout, Node.childList, Node.children, childRanges]
  · simp [calculateLayout, Node.childList, Node.children, childRanges]
  · simp only [calculateLayout, Node.childList, Node.children, Node.ann]
    exact forEach_span_eq_childRanges M lc x y level range _ (c :: cs) range.1 _

/-- C16 fails as stated on the doubles the source computes with. For a root
with twelve leaf children and the root range `[0, 2 * Math.PI]`, the loop of
lines 48-57 run in binary64 hands the last child the range
`[6484717939359404 * 2^-50, 7074237752028441 * 2^-50]`, whose end
(6.283185307179587) lies above the parent's end
`2 * Math.PI = 7074237752028440 * 2^-50` (6.283185307179586): the child's
span is not contained in its parent's span. -/
theorem childRanges_f64_not_nested :
    (childRanges F64.arith ((countLeafNodes twelveLeafTree).1.childList.map Node.ann)
        (countLeafNodes twelveLeafTree).1.ann
        (F64.ofNat 0, F64.mul (F64.ofNat 2) F64.PI) (F64.ofNat 0)).getLast?
      = some (F64.scaled 6484717939359404 50, F64.scaled 7074237752028441 50) ∧
    F64.mul (F64.ofNat 2) F64.PI = F64.scaled 7074237752028440 50 ∧
    F64.mul (F64.ofNat 2) F64.PI < F64.scaled 7074237752028441 50 := by
  decide!

/-- C16 (amended). In exact arithmetic, for a tree annotated by
`countLeafNodes` and laid out by `calculateLayout` from a call whose range
`[s, e]` has `s ≤ e` (the root call uses `[0, 2 * Math.PI]`), every node's
span is non-negative and lies inside `[s, e]`, its `leafCount` (the divisor of
line 49) is not zero, and for every child: the child's span lies inside the
node's span, the child is placed at the angle that is the midpoint of the
child's span, and that angle lies inside the child's span, hence inside
`[s, e]`. -/
theorem calculateLayout_spans_nested {α : Type} [LinearOrderedField α] (M : JsMath α)
    (t : Node Unit) (x y : α) (level : Nat) (range : α × α) (bb : BoundingBox α)
    (hle : range.1 ≤ range.2) :
    ∀ n ∈ (calculateLayout M (countLeafNodes t).1 x y level range bb).1.subnodes,
      n.ann.angleStart ≤ n.ann.angleEnd ∧ range.1 ≤ n.ann.angleStart ∧
      n.ann.angleEnd ≤ range.2 ∧ n.ann.leafCount ≠ 0 ∧ ((n.ann.leafCount : α) ≠ 0) ∧
      ∀ cs, n.children = some cs → ∀ c ∈ cs,
        n.ann.angleStart ≤ c.ann.angleStart ∧ c.ann.angleEnd ≤ n.ann.angleEnd ∧
        c.ann.x = n.ann.x + (300 - (n.ann.level : α) * 50)
          * M.cos (c.ann.angleStart + (c.ann.angleEnd - c.ann.angleStart) / 2) ∧
        c.ann.y = n.ann.y + (300 - (n.ann.level : α) * 50)
          * M.sin (c.ann.angleStart + (c.ann.angleEnd - c.ann.angleStart) / 2) ∧
        c.ann.angleStart ≤ c.ann.angleStart + (c.ann.angleEnd - c.ann.angleStart) / 2 ∧
        c.ann.angleStart + (c.ann.angleEnd - c.ann.angleStart) / 2 ≤ c.ann.angleEnd ∧
        range.1 ≤ c.ann.angleStart + (c.ann.angleEnd - c.ann.angleStart) / 2 ∧
        c.ann.angleStart + (c.ann.angleEnd - c.ann.angleStart) / 2 ≤ range.2 := by
  intro n hn
  have hrule := countLeafNodes_rule t
  obtain ⟨h1, h2, h3⟩ :=
    calculateLayout_spans_within M (countLeafNodes t).1 hrule x y level range bb hle n hn
  have hlc := calculateLayout_leafCount_ne_zero M (countLeafNodes t).1 hrule x y level range bb
    n hn
  refine ⟨h1, h2, h3, hlc, Nat.cast_ne_zero.mpr hlc, ?_⟩
  intro cs hcs c hc
  have hexact := calculateLayout_spansExact M (countLeafNodes t).1 hrule x y level range bb n hn
  obtain ⟨c1, c2, c3⟩ := spansExact_child_bounds n hexact h1 cs hcs c hc
  obtain ⟨-, p2, p3⟩ :=
    calculateLayout_childrenOffset M (countLeafNodes t).1 x y level range bb n hn cs hcs c hc
  refine ⟨c2, c3, p2, p3, ?_, ?_, ?_, ?_⟩ <;> linarith

/-- Witness for C16 (amended): in the lease tree, laid out over the reals from the root
call, the first child's placement angle (the midpoint of its span) lies in
`[0, 2 * pi]`. -/
theorem calculateLayout_spans_nested_witness :
    (0 : ℝ) ≤ 2 * Real.pi ∧
    0 ≤ ((leasePlaced (⟨Real.cos, Real.sin, Real.pi⟩ : JsMath ℝ)).childList.headD
          (leasePlaced ⟨Real.cos, Real.sin, Real.pi⟩)).ann.angleStart
        + (((leasePlaced (⟨Real.cos, Real.sin, Real.pi⟩ : JsMath ℝ)).childList.headD
            (leasePlaced ⟨Real.cos, Real.sin, Real.pi⟩)).ann.angleEnd
          - ((leasePlaced (⟨Real.cos, Real.sin, Real.pi⟩ : JsMath ℝ)).childList.headD
            (leasePlaced ⟨Real.cos, Real.sin, Real.pi⟩)).ann.angleStart) / 2 ∧
    ((leasePlaced (⟨Real.cos, Real.sin, Real.pi⟩ : JsMath ℝ)).childList.headD
          (leasePlaced ⟨Real.cos, Real.sin, Real.pi⟩)).ann.angleStart
        + (((leasePlaced (⟨Real.cos, Real.sin, Real.pi⟩ : JsMath ℝ)).childList.headD
            (leasePlaced ⟨Real.cos, Real.sin, Real.pi⟩)).ann.angleEnd
          - ((leasePlaced (⟨Real.cos, Real.sin, Real.pi⟩ : JsMath ℝ)).childList.headD
            (leasePlaced ⟨Real.cos, Real.sin, Real.pi⟩)).ann.angleStart) / 2
      ≤ 2 * Real.pi := by
  have hpi : (0 : ℝ) ≤ 2 * Real.pi := by positivity
  have h := calculateLayout_spans_nested (⟨Real.cos, Real.sin, Real.pi⟩ : JsMath ℝ) leaseTree
    0 0 0 (0, 2 * Real.pi) BoundingBox.init hpi _ (Node.mem_subnodes_self _)
  have hc := h.2.2.2.2.2 _ rfl
    ((leasePlaced (⟨Real.cos, Real.sin, Real.pi⟩ : JsMath ℝ)).childList.headD
      (leasePlaced ⟨Real.cos, Real.sin, Real.pi⟩))
    (by simp [leasePlaced, layoutRoot, leaseTree, countLeafNodes, countLeafNodes.forEach,
          calculateLayout, calculateLayout.forEach, Node.childList, Node.children])
  exact ⟨hpi, hc.2.2.2.2.2.2.1, hc.2.2.2.2.2.2.2⟩

/-! ### Facts about the wrap loop: the words are kept -/

theorem splitSpace_cons_space (cs : JsString) :
    splitSpace (' ' :: cs) = [] :: splitSpace cs := by
  simp [splitSpace]

theorem splitSpace_cons_of_ne (c : Char) (cs : JsString) (hc : c ≠ ' ') :
    splitSpace (c :: cs) = (c :: (splitSpace cs).headD []) :: (splitSpace cs).tail := by
  rw [splitSpace, if_neg hc]
  rcases hsp : splitSpace cs with _ | ⟨w, ws⟩
  · exact absurd hsp (splitSpace_ne_nil cs)
  · rfl

theorem splitSpace_append_space (t : JsString) :
    splitSpace (t ++ [' ']) = splitSpace t ++ [[]] := by
  induction t with
  | nil => rfl
  | cons c cs ih =>
    by_cases hc : c = ' '
    · subst hc
      rw [List.cons_append, splitSpace_cons_space, splitSpace_cons_space, ih]
      rfl
    · rw [List.cons_append, splitSpace_cons_of_ne c _ hc, splitSpace_cons_of_ne c _ hc, ih]
      rcases hsp : splitSpace cs with _ | ⟨w, ws⟩
      · exact absurd hsp (splitSpace_ne_nil cs)
      · rfl

theorem splitSpace_word_space (w rest : JsString) (hw : ' ' ∉ w) :
    splitSpace (w ++ ' ' :: rest) = w :: splitSpace rest := by
  induction w with
  | nil => exact splitSpace_cons_space rest
  | cons c cs ih =>
    simp only [List.mem_cons, not_or] at hw
    have hc : c ≠ ' ' := fun h => hw.1 h.symm
    rw [List.cons_append, splitSpace_cons_of_ne c _ hc, ih hw.2]
    rfl

theorem splitSpace_joinSp (ws : List JsString) (hws : ∀ w ∈ ws, ' ' ∉ w) :
    splitSpace ((ws.map (fun w => w ++ [' '])).flatten) = ws ++ [[]] := by
  induction ws with
  | nil => rfl
  | cons w ws ih =>
    have h : ((w :: ws).map (fun w => w ++ [' '])).flatten
        = w ++ ' ' :: (ws.map (fun w => w ++ [' '])).flatten := by simp
    rw [h, splitSpace_word_space w _ (hws w (List.mem_cons_self _ _)),
      ih (fun v hv => hws v (List.mem_cons_of_mem _ hv))]
    rfl

theorem dropWhile_congr_mem {β : Type} (p q : β → Bool) (l : List β)
    (h : ∀ c ∈ l, p c = q c) : l.dropWhile p = l.dropWhile q := by
  induction l with
  | nil => rfl
  | cons c cs ih =>
    have hc := h c (List.mem_cons_self _ _)
    have ih2 := ih (fun d hd => h d (List.mem_cons_of_mem _ hd))
    simp only [List.dropWhile_cons, hc, ih2]

theorem filter_splitSpace_dropWhile (t : JsString) :
    (splitSpace (t.dropWhile (fun c => c == ' '))).filter (fun w => !w.isEmpty)
      = (splitSpace t).filter (fun w => !w.isEmpty) := by
  induction t with
  | nil => rfl
  | cons c cs ih =>
    by_cases hc : c = ' '
    · subst hc
      rw [splitSpace_cons_space]
      simpa using ih
    · have : (c == ' ') = false := by simpa using hc
      simp [List.dropWhile_cons, this]

theorem filter_splitSpace_rdropWhile (u : JsString) :
    (splitSpace ((u.dropWhile (fun c => c == ' ')).reverse)).filter (fun w => !w.isEmpty)
      = (splitSpace u.reverse).filter (fun w => !w.isEmpty) := by
  induction u with
  | nil => rfl
  | cons c cs ih =>
    by_cases hc : c = ' '
    · subst hc
      simp [splitSpace_append_space, ih]
    · have : (c == ' ') = false := by simpa using hc
      simp [List.dropWhile_cons, this]

/-- On a text whose only trimmed characters are spaces, `trim` removes only
empty pieces. -/
theorem filter_splitSpace_trim (t : JsString)
    (h : ∀ c ∈ t, c ≠ ' ' → isTrimChar c = false) :
    (splitSpace (trim t)).filter (fun w => !w.isEmpty)
      = (splitSpace t).filter (fun w => !w.isEmpty) := by
  have hpq : ∀ c ∈ t, isTrimChar c = (c == ' ') := by
    intro c hc
    by_cases hsp : c = ' '
    · subst hsp
      simp [isTrimChar_space]
    · rw [h c hc hsp]
      simpa using hsp
  have h1 : t.dropWhile isTrimChar = t.dropWhile (fun c => c == ' ') :=
    dropWhile_congr_mem _ _ t hpq
  have h2 : (t.dropWhile (fun c => c == ' ')).reverse.dropWhile isTrimChar
      = (t.dropWhile (fun c => c == ' ')).reverse.dropWhile (fun c => c == ' ') := by
    apply dropWhile_congr_mem
    intro c hc
    rw [List.mem_reverse] at hc
    exact hpq c ((List.dropWhile_suffix _).sublist.subset hc)
  unfold trim
  rw [h1, h2, filter_splitSpace_rdropWhile, List.reverse_reverse, filter_splitSpace_dropWhile]

theorem mem_of_mem_splitSpace (s : JsString) (w : JsString) (hw : w ∈ splitSpace s)
    (c : Char) (hc : c ∈ w) : c ∈ s ∧ c ≠ ' ' := by
  have hne : c ≠ ' ' := fun h => splitSpace_no_space s w hw (h ▸ hc)
  have hmem : c ∈ ((splitSpace s).map (fun w => w ++ [' '])).flatten := by
    simp only [List.mem_flatten, List.mem_map]
    exact ⟨w ++ [' '], ⟨w, hw, rfl⟩, by simp [hc]⟩
  rw [splitSpace_join] at hmem
  simp only [List.mem_append, List.mem_singleton] at hmem
  rcases hmem with hmem | hmem
  · exact ⟨hmem, hne⟩
  · exact absurd hmem hne

theorem filter_splitSpace_trim_joinSp (cur : List JsString)
    (hcur : ∀ w ∈ cur, ∀ c ∈ w, isTrimChar c = false) :
    (splitSpace (trim ((cur.map (fun w => w ++ [' '])).flatten))).filter (fun w => !w.isEmpty)
      = cur.filter (fun w => !w.isEmpty) := by
  have hsp : ∀ w ∈ cur, ' ' ∉ w := by
    intro w hw hmem
    have := hcur w hw ' ' hmem
    rw [isTrimChar_space] at this
    exact absurd this (by decide)
  rw [filter_splitSpace_trim, splitSpace_joinSp cur hsp]
  · simp
  · intro c hc hne
    simp only [List.mem_flatten, List.mem_map] at hc
    obtain ⟨l, ⟨w, hw, rfl⟩, hcl⟩ := hc
    simp only [List.mem_append, List.mem_singleton] at hcl
    rcases hcl with hcl | hcl
    · exact hcur w hw c hcl
    · exact absurd hcl hne

theorem foldl_wrapWord_words (maxChars : Nat) : ∀ (ws : List JsString) (st : WrapState)
    (cur done : List JsString),
    (∀ w ∈ ws, ∀ c ∈ w, isTrimChar c = false) →
    (∀ w ∈ cur, ∀ c ∈ w, isTrimChar c = false) →
    st.line = (cur.map (fun w => w ++ [' '])).flatten →
    ((st.tspanLines.map splitSpace).flatten).filter (fun w => !w.isEmpty)
        ++ cur.filter (fun w => !w.isEmpty) = done.filter (fun w => !w.isEmpty) →
    ∃ cur2 : List JsString, (∀ w ∈ cur2, ∀ c ∈ w, isTrimChar c = false) ∧
      (ws.foldl (wrapWord maxChars) st).line = (cur2.map (fun w => w ++ [' '])).flatten ∧
      (((ws.foldl (wrapWord maxChars) st).tspanLines.map splitSpace).flatten).filter
          (fun w => !w.isEmpty) ++ cur2.filter (fun w => !w.isEmpty)
        = (done ++ ws).filter (fun w => !w.isEmpty)
  | [], st, cur, done, _, hcur, hline, hsum => ⟨cur, hcur, hline, by simpa using hsum⟩
  | w :: ws, st, cur, done, hws, hcur, hline, hsum => by
      have hw := hws w (List.mem_cons_self _ _)
      have hrest : ∀ v ∈ ws, ∀ c ∈ v, isTrimChar c = false :=
        fun v hv => hws v (List.mem_cons_of_mem _ hv)
      have hgoal : (done ++ w :: ws) = (done ++ [w]) ++ ws := by simp
      rw [List.foldl_cons, hgoal]
      by_cases hc : (st.line ++ w).length > maxChars ∧ st.line.length > 0
      · have hstep : wrapWord maxChars st w
            = { tspanLines := st.tspanLines ++ [trim st.line], line := w ++ [' '] } := by
          simp only [wrapWord, if_pos hc]
        rw [hstep]
        refine foldl_wrapWord_words maxChars ws _ [w] (done ++ [w]) hrest ?_ (by simp) ?_
        · intro v hv
          simp only [List.mem_singleton] at hv
          subst hv
          exact hw
        · simp only [List.map_append, List.flatten_append, List.filter_append, List.map_cons,
            List.map_nil, List.flatten_cons, List.flatten_nil, List.append_nil]
          rw [hline, filter_splitSpace_trim_joinSp cur hcur, hsum]
      · have hstep : wrapWord maxChars st w
            = { tspanLines := st.tspanLines, line := st.line ++ (w ++ [' ']) } := by
          simp only [wrapWord, if_neg hc]
        rw [hstep]
        refine foldl_wrapWord_words maxChars ws _ (cur ++ [w]) (done ++ [w]) hrest ?_
          (by simp [hline]) ?_
        · intro v hv
          simp only [List.mem_append, List.mem_singleton] at hv
          rcases hv with hv | hv
          · exact hcur v hv
          · subst hv
            exact hw
        · simp only [List.filter_append, ← List.append_assoc, hsum]

/-- C17. For every text whose characters other than the space are not white
space (none is removed by `trim`), and every `maxCharsPerLine`: splitting
each line of the word wrap on spaces, concatenating the pieces in line order
and dropping the empty ones gives exactly the non-empty space-separated words
of the text, in order: no word is lost, duplicated, split or moved. -/
theorem wrapText_words (text : JsString) (maxChars : Nat)
    (h : ∀ c ∈ text, c ≠ ' ' → isTrimChar c = false) :
    (((wrapText text maxChars).map splitSpace).flatten).filter (fun w => !w.isEmpty)
      = (splitSpace text).filter (fun w => !w.isEmpty) := by
  have hwords : ∀ w ∈ splitSpace text, ∀ c ∈ w, isTrimChar c = false := by
    intro w hw c hc
    obtain ⟨h1, h2⟩ := mem_of_mem_splitSpace text w hw c hc
    exact h c h1 h2
  obtain ⟨cur2, hcur2, hline, hsum⟩ := foldl_wrapWord_words maxChars (splitSpace text)
    { line := [], tspanLines := [] } [] [] hwords (by simp) (by simp) (by simp)
  simp only [List.nil_append] at hsum
  rw [← hsum]
  simp only [wrapText, List.map_append, List.flatten_append, List.filter_append, List.map_cons,
    List.map_nil, List.flatten_cons, List.flatten_nil, List.append_nil]
  rw [hline, filter_splitSpace_trim_joinSp cur2 hcur2]

/-- Witness for C17: `ab   cd  efgh` wrapped at width 5 keeps the words `ab`,
`cd`, `efgh` in order. -/
theorem wrapText_words_witness :
    (((wrapText "ab   cd  efgh".toList 5).map splitSpace).flatten).filter
        (fun w => !w.isEmpty)
      = ["ab".toList, "cd".toList, "efgh".toList] :=
  (wrapText_words "ab   cd  efgh".toList 5 (by decide)).trans (by decide)

end MindMap
